import Mathlib

/-!
Verification of the asset-extraction engine in `src/app/api/explode/route.ts`.

The TypeScript route exposes a `POST` handler that, given a target URL,
fetches the document, walks it for image references and CSS fragments,
fetches external stylesheets, and runs three regex extractors
(`extractColors`, `extractFonts`, `extractBackgroundImages`) over the
combined CSS corpus, returning three deduplicated collections.

Shallow embedding conventions:
  * JavaScript strings are modelled as Lean `String` / `List Char`.
  * The JS regex scans are implemented as explicit scanners over `List Char`
    that reproduce the backtracking behaviour of the concrete patterns used
    by the source (hand-derived; each scanner is documented with the regex
    it embeds).  Global scans that resume at `lastIndex` after each match
    are fuelled by the input length.
  * `JSSet` insertion-order semantics are modelled by `addUniq` folds over
    lists.
  * External effects (the WHATWG `URL` constructor, `decodeURIComponent`,
    `fetch`, and the cheerio HTML parse) are modelled as oracles: an
    environment of partial functions, a fetch result datatype, and a
    pre-parsed document (a list of elements with tag, attributes and inner
    text), since none of the verified claims depend on their internals.
-/

namespace Explode

/-! ### Character classes (JS regex semantics, ASCII ranges) -/

/-- Hexadecimal digit, the class `[0-9A-Fa-f]` of the color regex. -/
def isHexDigit (c : Char) : Bool :=
  (('0' ≤ c && c ≤ '9') || ('a' ≤ c && c ≤ 'f') || ('A' ≤ c && c ≤ 'F'))

/-- JS word character `\w` = `[A-Za-z0-9_]`, used by the `\b` assertion. -/
def isWordChar (c : Char) : Bool :=
  (('0' ≤ c && c ≤ '9') || ('a' ≤ c && c ≤ 'z') || ('A' ≤ c && c ≤ 'Z') || c = '_')

/-- Whitespace for `\s` / `trim`; the source only ever meets ASCII whitespace. -/
def isWs (c : Char) : Bool :=
  (c = ' ' || c = '\t' || c = '\n' || c = '\r')

/-- Uppercase hexadecimal digit `[0-9A-F]`. -/
def isUpperHexDigit (c : Char) : Bool :=
  (('0' ≤ c && c ≤ '9') || ('A' ≤ c && c ≤ 'F'))

/-- Models `String.prototype.toUpperCase` on the characters the source
applies it to (hex color strings): ASCII lowercase letters are mapped to
uppercase, every other character is unchanged. -/
def asciiUpper (c : Char) : Char :=
  if 'a' ≤ c && c ≤ 'z' then Char.ofNat (c.toNat - 32) else c

/-- ASCII lowercasing, used to model the `i` (case-insensitive) regex flag
on the ASCII literals the source patterns contain. -/
def asciiLower (c : Char) : Char :=
  if 'A' ≤ c && c ≤ 'Z' then Char.ofNat (c.toNat + 32) else c

/-! ### List-level string utilities -/

/-- Insertion into a JS `Set` (insertion order preserved, duplicates dropped);
also models re-adding to an already collected array-as-set. -/
def addUniq {α : Type} [DecidableEq α] (s : List α) (x : α) : List α :=
  if x ∈ s then s else s ++ [x]

/-- Keep the first occurrence of every element, in first-occurrence order. -/
def dedupFirst {α : Type} [DecidableEq α] : List α → List α
  | [] => []
  | x :: xs => x :: dedupFirst (xs.filter (fun y => y ≠ x))
termination_by l => l.length
decreasing_by
  simp only [List.length_cons]
  exact Nat.lt_succ_of_le (List.length_filter_le _ _)

/-- JS `String.prototype.split` with a one-character separator:
`"".split(sep)` is `[""]`, separators at the ends produce empty pieces. -/
def splitOnChar (sep : Char) : List Char → List (List Char)
  | [] => [[]]
  | c :: cs =>
    if c = sep then [] :: splitOnChar sep cs
    else
      match splitOnChar sep cs with
      | t :: ts => (c :: t) :: ts
      | [] => [[c]]

/-- JS `String.prototype.trim` (ASCII whitespace, see `isWs`). -/
def listTrim (cs : List Char) : List Char :=
  ((cs.dropWhile isWs).reverse.dropWhile isWs).reverse

/-! ### `extractColors` (route.ts lines 24-34)

```ts
const colorRegex = /#([0-9A-Fa-f]{6}|[0-9A-Fa-f]{3})\b/g;
const matches = text.match(colorRegex) || [];
return matches.map((color) => {
  if (color.length === 4) {
    return `#...doubled digits...`.toUpperCase();
  }
  return color.toUpperCase();
});
```

The scanner below walks the text character by character.  The `g`-flag
engine resumes searching at the end of each match; since a match is `#`
followed by hex digits, and `#` is neither a hex digit nor can appear
after the first character of a match, no match can begin strictly inside
another one, so advancing a single character after each match visits
exactly the same match set as resuming after the match. -/

/-- Take exactly `n` leading hex digits, returning them and the rest. -/
def hexTake : Nat → List Char → Option (List Char × List Char)
  | 0, cs => some ([], cs)
  | _ + 1, [] => none
  | n + 1, c :: cs =>
    if isHexDigit c then (hexTake n cs).map (fun p => (c :: p.1, p.2)) else none

/-- The trailing `\b` assertion: the previous character is a hex digit (a
word character), so the boundary holds iff the next character is not a
word character, or the input ends. -/
def wordBoundary : List Char → Bool
  | [] => true
  | c :: _ => !isWordChar c

/-- Attempt the alternation `([0-9A-Fa-f]{6}|[0-9A-Fa-f]{3})\b` at the
position just after a `#`: six digits are preferred, and if the boundary
fails after six the engine backtracks and tries three. -/
def tryColorAt (cs : List Char) : Option (List Char) :=
  match hexTake 6 cs with
  | some (d, r) =>
    if wordBoundary r then some d
    else
      match hexTake 3 cs with
      | some (d3, r3) => if wordBoundary r3 then some d3 else none
      | none => none
  | none =>
    match hexTake 3 cs with
    | some (d3, r3) => if wordBoundary r3 then some d3 else none
    | none => none

/-- All matches of the color regex, in order of occurrence. -/
def colorScan : List Char → List (List Char)
  | [] => []
  | c :: cs =>
    if c = '#' then
      match tryColorAt cs with
      | some d => ('#' :: d) :: colorScan cs
      | none => colorScan cs
    else colorScan cs

/-- The normalization in the `map`: a 4-character match `#RGB` has each
digit doubled, then the whole string is uppercased; a 7-character match is
uppercased directly. -/
def normalizeColor (m : List Char) : List Char :=
  if m.length = 4 then
    match m with
    | [_, a, b, c] => ([ '#', a, a, b, b, c, c ]).map asciiUpper
    | _ => []
  else m.map asciiUpper

/-- The function `extractColors` from route.ts: every regex match, normalized.
No deduplication happens here (the orchestrator deduplicates on merge). -/
def extractColors (text : String) : List String :=
  (colorScan text.data).map (fun m => ⟨normalizeColor m⟩)

/-! ### `extractFonts` (route.ts lines 53-83)

Pass 1 iterates `/font-family\s*:\s*([^;{}]+)/gi` over the CSS, splits each
captured value on commas, trims each token, deletes every quote character,
and adds the result to the set unless it is empty or matches
`/^(inherit|initial|unset|none)$/i`.

Pass 2 iterates `/@font-face\s*{([^}]+)}/gi`; inside each block body it
takes the first match of `/font-family\s*:\s*[quote]?([^quote;]+)[quote]?/i`
and adds the trimmed capture. -/

/-- Case-insensitive literal match (the `i` flag on an ASCII literal):
returns the input after the literal on success. -/
def ciPrefix : List Char → List Char → Option (List Char)
  | [], cs => some cs
  | _ :: _, [] => none
  | p :: ps, c :: cs =>
    if asciiLower c = asciiLower p then ciPrefix ps cs else none

/-- Characters that terminate the pass-1 capture `[^;{}]+`. -/
def stopPass1 (c : Char) : Bool :=
  (c = ';' || c = '{' || c = '}')

/-- Characters that terminate the `@font-face` inner capture: a quote or
a semicolon. -/
def stopQuoted (c : Char) : Bool :=
  (c = '\x27' || c = '"' || c = ';')

/-- The continuation `\s*:\s*([^;{}]+)` after the `font-family` literal of pass 1.
The second `\s*` is greedy but backtracks: if the character after the
whitespace run is a terminator, the capture instead takes the last
whitespace character (whitespace is allowed inside `[^;{}]+`).
Returns the capture and the input after it (`lastIndex`). -/
def pass1After (cs : List Char) : Option (List Char × List Char) :=
  match cs.dropWhile isWs with
  | ':' :: cs2 =>
    let ws := cs2.takeWhile isWs
    let tail := cs2.dropWhile isWs
    let run := tail.takeWhile (fun c => !stopPass1 c)
    if run ≠ [] then some (run, tail.drop run.length)
    else
      match ws.reverse with
      | [] => none
      | w :: _ => some ([w], tail)
  | _ => none

/-- All captures of `/font-family\s*:\s*([^;{}]+)/gi`: on a match the scan
resumes after the capture, on failure it advances one character.  Fuel is
the remaining input length. -/
def scanPass1 : Nat → List Char → List (List Char)
  | 0, _ => []
  | _ + 1, [] => []
  | fuel + 1, c :: cs =>
    match ciPrefix "font-family".data (c :: cs) with
    | some rest =>
      match pass1After rest with
      | some (cap, after) => cap :: scanPass1 fuel after
      | none => scanPass1 fuel cs
    | none => scanPass1 fuel cs

/-- All block bodies captured by `/@font-face\s*{([^}]+)}/gi`. -/
def scanBlocks : Nat → List Char → List (List Char)
  | 0, _ => []
  | _ + 1, [] => []
  | fuel + 1, c :: cs =>
    match ciPrefix "@font-face".data (c :: cs) with
    | some rest =>
      match rest.dropWhile isWs with
      | '\x7b' :: r2 =>
        let body := r2.takeWhile (fun c => c ≠ '\x7d')
        let r3 := r2.drop body.length
        if body ≠ [] ∧ r3 ≠ [] then body :: scanBlocks fuel (r3.drop 1)
        else scanBlocks fuel cs
      | _ => scanBlocks fuel cs
    | none => scanBlocks fuel cs

/-- The part of the inner `@font-face` pattern after the `font-family`
literal: `\s*:\s*[quote]?([^quote;]+)`.  An opening quote is consumed when
present; if the capture after it would be empty the engine backtracks into
the second `\s*` and captures its last whitespace character. -/
def innerFamilyAfter (cs : List Char) : Option (List Char) :=
  match cs.dropWhile isWs with
  | ':' :: cs2 =>
    let ws := cs2.takeWhile isWs
    let tail := cs2.dropWhile isWs
    let fallback : Option (List Char) :=
      match ws.reverse with
      | [] => none
      | w :: _ => some [w]
    match tail with
    | q :: t2 =>
      if q = '\x27' || q = '"' then
        let run := t2.takeWhile (fun c => !stopQuoted c)
        if run ≠ [] then some run else fallback
      else
        let run := tail.takeWhile (fun c => !stopQuoted c)
        if run ≠ [] then some run else fallback
    | [] => fallback
  | _ => none

/-- First match of the inner `@font-face` family pattern (no `g` flag):
advance one character on failure, stop at the first success. -/
def findInnerFamily : List Char → Option (List Char)
  | [] => none
  | c :: cs =>
    match ciPrefix "font-family".data (c :: cs) with
    | some rest =>
      match innerFamilyAfter rest with
      | some cap => some cap
      | none => findInnerFamily cs
    | none => findInnerFamily cs

/-- Token cleanup of pass 1: `font.trim().replace(/[quote]/g, "")` —
trim first, then delete every quote character (also interior ones). -/
def cleanToken (tok : List Char) : List Char :=
  (listTrim tok).filter (fun c => !(c = '\x27' || c = '"'))

/-- The anchored keyword filter `/^(inherit|initial|unset|none)$/i`. -/
def isCssWideKeyword (cs : List Char) : Bool :=
  let l := cs.map asciiLower
  (l = "inherit".data || l = "initial".data || l = "unset".data || l = "none".data)

/-- The function `extractFonts` from route.ts: the insertion-ordered font set built by
pass 1 (declarations) then pass 2 (`@font-face` blocks). -/
def extractFonts (css : String) : List String :=
  let cs := css.data
  let s1 : List (List Char) :=
    (scanPass1 cs.length cs).foldl
      (fun s v =>
        (splitOnChar ',' (listTrim v)).foldl
          (fun s tok =>
            let cleaned := cleanToken tok
            if cleaned ≠ [] && !isCssWideKeyword cleaned then addUniq s cleaned
            else s)
          s)
      []
  let s2 : List (List Char) :=
    (scanBlocks cs.length cs).foldl
      (fun s body =>
        match findInnerFamily body with
        | some cap => addUniq s (listTrim cap)
        | none => s)
      s1
  s2.map (fun l => (⟨l⟩ : String))

/-- The pass-1 contribution of `extractFonts` in declarative form: for
every capture of the `font-family` declaration regex, the comma-split
tokens of the trimmed value, each trimmed and quote-stripped, with empty
tokens and CSS-wide keywords dropped. -/
def pass1Entries (css : String) : List (List Char) :=
  (scanPass1 css.data.length css.data).flatMap (fun v =>
    (splitOnChar ',' (listTrim v)).filterMap (fun tok =>
      let cleaned := cleanToken tok
      if cleaned ≠ [] && !isCssWideKeyword cleaned then some cleaned else none))

/-- The pass-2 contribution of `extractFonts` in declarative form: for
every `@font-face` block body with an inner `font-family` match, the
trimmed capture. -/
def pass2Entries (css : String) : List (List Char) :=
  (scanBlocks css.data.length css.data).filterMap
    (fun b => (findInnerFamily b).map listTrim)

/-! ### `extractBackgroundImages` (route.ts lines 37-50)

```ts
const bgRegex = /url\(['"]?([^'")]+)['"]?\)/g;
while ((match = bgRegex.exec(css)) !== null) {
  const imageUrl = match[1];
  if (!imageUrl.startsWith("data:")) images.push(resolveUrl(baseUrl, imageUrl));
}
```
The pattern is case-sensitive (no `i` flag). -/

/-- Characters that terminate the `url(...)` capture `[^'")]+`. -/
def stopUrl (c : Char) : Bool :=
  (c = '\x27' || c = '"' || c = ')')

/-- The capture-and-close part `([^'\x22)]+)['\x22]?\)`: a non-empty run
of capture characters, then the closing parenthesis, optionally preceded
by one quote.  Every other continuation makes the whole attempt fail
(backtracking cannot help: the capture class excludes quotes and the
closing parenthesis). -/
def urlTail (t : List Char) : Option (List Char × List Char) :=
  let run := t.takeWhile (fun c => !stopUrl c)
  if run = [] then none
  else
    match t.drop run.length with
    | ')' :: r => some (run, r)
    | q2 :: ')' :: r => if q2 = '\x27' || q2 = '"' then some (run, r) else none
    | _ => none

/-- The part after the literal `url(`: an opening quote is consumed when
present, then the capture and close.  (When the head is a quote and the
capture after it would be empty, the engine cannot backtrack into taking
the quote as capture text, so the attempt simply fails — `urlTail` of the
rest returns `none`.) -/
def urlCaptureAt (cs : List Char) : Option (List Char × List Char) :=
  match cs with
  | q :: t2 => if q = '\x27' || q = '"' then urlTail t2 else urlTail cs
  | [] => none

/-- All captures of the `url(...)` regex, resuming after each match. -/
def scanUrls : Nat → List Char → List (List Char)
  | 0, _ => []
  | _ + 1, [] => []
  | fuel + 1, c :: cs =>
    if "url(".data.isPrefixOf (c :: cs) then
      match urlCaptureAt ((c :: cs).drop 4) with
      | some (cap, rest) => cap :: scanUrls fuel rest
      | none => scanUrls fuel cs
    else scanUrls fuel cs

/-! ### The JS environment: URL constructor, decodeURIComponent, fetch -/

/-- Oracles for the external JS primitives the route calls.  `resolve`
models `new URL(rel, base).href` (`none` = the constructor throws);
`parseOk` models whether `new URL(u)` succeeds; `decodeURI` models
`decodeURIComponent` (`none` = it throws `URIError`). -/
structure JsEnv where
  parseOk : String → Bool
  resolve : String → String → Option String
  decodeURI : String → Option String

/-- The helper `resolveUrl` from route.ts lines 15-21: try `new URL(rel, base).href`,
and on failure return the relative reference unchanged. -/
def resolveUrl (env : JsEnv) (base rel : String) : String :=
  match env.resolve rel base with
  | some href => href
  | none => rel

/-- The function `extractBackgroundImages` from route.ts: each capture that does not
start with `data:` is resolved against the base and appended in order
(duplicates kept at this layer). -/
def extractBackgroundImages (env : JsEnv) (css baseUrl : String) : List String :=
  (scanUrls css.data.length css.data).filterMap
    (fun cap =>
      if "data:".data.isPrefixOf cap then none
      else some (resolveUrl env baseUrl (⟨cap⟩ : String)))

/-! ### The Google-Fonts family parameter (route.ts lines 205-216)

```ts
$("link[href*='fonts.googleapis.com']").each((_, elem) => {
  const href = $(elem).attr("href");
  if (href) {
    const familyMatch = /family=([^&:]+)/i.exec(href);
    if (familyMatch) {
      const families = decodeURIComponent(familyMatch[1]).split("|");
      families.forEach((family) => { fonts.add(family.replace(/\+/g, " ")); });
    }
  }
});
``` -/

/-- Characters that terminate the `family=` capture `[^&:]+`. -/
def stopFamily (c : Char) : Bool :=
  (c = '&' || c = ':')

/-- First match of `/family=([^&:]+)/i` over an address. -/
def findFamilyCapture : List Char → Option (List Char)
  | [] => none
  | c :: cs =>
    match ciPrefix "family=".data (c :: cs) with
    | some rest =>
      let run := rest.takeWhile (fun c => !stopFamily c)
      if run = [] then findFamilyCapture cs else some run
    | none => findFamilyCapture cs

/-- The replacement `family.replace(/\+/g, " ")`. -/
def plusToSpace (c : Char) : Char :=
  if c = '+' then ' ' else c

/-! ### The parsed document and the fetch oracle

`cheerio.load(html)` parses any string into a document tree without
failing; the route only queries the tree through a fixed set of selectors
and reads attributes and inner text.  The parsed document is therefore
modelled as the flat, document-ordered list of elements with their tag
name, attribute list and inner text — exactly the data the selectors
consume. -/

/-- JS `String.prototype.includes` / the `[attr*=value]` selector test:
`pat` occurs as a contiguous segment. -/
def hasSeg (pat : List Char) : List Char → Bool
  | [] => pat.isEmpty
  | c :: cs => pat.isPrefixOf (c :: cs) || hasSeg pat cs

/-- One element of the parsed document. -/
structure Elem where
  tag : String
  attrs : List (String × String)
  inner : String
deriving DecidableEq

/-- The parsed document: elements in document order. -/
abbrev Doc := List Elem

/-- The lookup `$(elem).attr(name)`: the attribute value, if present. -/
def getAttr (e : Elem) (name : String) : Option String :=
  (e.attrs.find? (fun p => p.1 = name)).map (fun p => p.2)

/-- The result of one `fetch`: a network-level rejection, or a response
with status, `statusText` and body.  `fetchResponse.ok` is
`200 <= status <= 299`. -/
inductive FetchResult (α : Type) where
  | netErr : FetchResult α
  | resp (status : Nat) (statusText : String) (body : α) : FetchResult α
deriving DecidableEq

/-- The predicate `Response.ok`. -/
def respOk (status : Nat) : Bool :=
  (200 ≤ status && status ≤ 299)

/-- The request body: `await request.json()` either throws (malformed
JSON, caught by the outer handler) or yields an object whose `url` field
may be absent. -/
inductive ReqBody where
  | badJson : ReqBody
  | json (url : Option String) : ReqBody

/-- The JSON responses the handler can produce. -/
inductive ApiResult where
  | validationErr (msg : String) : ApiResult
  | upstreamErr (msg : String) : ApiResult
  | internalErr : ApiResult
  | success (images colors fonts : List String) : ApiResult
deriving DecidableEq

/-! ### The POST pipeline (route.ts lines 85-232), split into the same
stages as the source. -/

/-- Lines 130-135: the `$("img")` pass.  A `src` that is present, truthy
(non-empty) and not a `data:` URI is resolved and added. -/
def imgPass (env : JsEnv) (base : String) (doc : Doc) (s : List String) : List String :=
  doc.foldl
    (fun s e =>
      if e.tag = "img" then
        match getAttr e "src" with
        | some src =>
          if src ≠ "" ∧ ¬ "data:".data.isPrefixOf src.data then
            addUniq s (resolveUrl env base src)
          else s
        | none => s
      else s)
    s

/-- Lines 138-148: the `$("img[srcset], source[srcset]")` pass.  The
`srcset` value is split on commas; the leading whitespace-delimited token
of each trimmed candidate is taken; truthy non-`data:` tokens are resolved
and added. -/
def srcsetPass (env : JsEnv) (base : String) (doc : Doc) (s : List String) : List String :=
  doc.foldl
    (fun s e =>
      if (e.tag = "img" ∨ e.tag = "source") ∧ (getAttr e "srcset").isSome then
        match getAttr e "srcset" with
        | some srcset =>
          if srcset ≠ "" then
            (splitOnChar ',' srcset.data).foldl
              (fun s part =>
                let tok := (listTrim part).takeWhile (fun c => !isWs c)
                if tok ≠ [] ∧ ¬ "data:".data.isPrefixOf tok then
                  addUniq s (resolveUrl env base (⟨tok⟩ : String))
                else s)
              s
          else s
        | none => s
      else s)
    s

/-- Lines 151-156: inline `style` attributes, pushed verbatim when truthy. -/
def inlineCssOf (doc : Doc) : List String :=
  doc.foldl
    (fun l e =>
      match getAttr e "style" with
      | some st => if st ≠ "" then l ++ [st] else l
      | none => l)
    []

/-- Lines 159-164: the text of `<style>` blocks, pushed when truthy. -/
def embeddedCssOf (doc : Doc) : List String :=
  doc.foldl
    (fun l e => if e.tag = "style" ∧ e.inner ≠ "" then l ++ [e.inner] else l)
    []

/-- Lines 168-172: the resolved addresses of every
`link[rel='stylesheet']` with a truthy `href` — each of these is fetched. -/
def stylesheetUrls (env : JsEnv) (base : String) (doc : Doc) : List String :=
  doc.foldl
    (fun l e =>
      if e.tag = "link" ∧ getAttr e "rel" = some "stylesheet" then
        match getAttr e "href" with
        | some href => if href ≠ "" then l ++ [resolveUrl env base href] else l
        | none => l
      else l)
    []

/-- Lines 172-190: the recovered external CSS texts.  A non-ok status
yields the empty string and a network error yields nothing; only truthy
texts are pushed.  (The fetches run concurrently and push in completion
order; completion order is modelled as queue order, which claim C9 is
about.) -/
def fetchedCssTexts (cssFetch : String → FetchResult String) (urls : List String) : List String :=
  urls.foldl
    (fun l u =>
      match cssFetch u with
      | .resp st _ body => if respOk st ∧ body ≠ "" then l ++ [body] else l
      | .netErr => l)
    []

/-- Line 193: `allCss.join("\n")` — the pieces interleaved with one
newline. -/
def joinNl : List String → String
  | [] => ""
  | [x] => x
  | x :: y :: xs => x ++ "\n" ++ joinNl (y :: xs)

/-- The full CSS corpus of one run. -/
def combinedCssOf (env : JsEnv) (base : String) (doc : Doc)
    (cssFetch : String → FetchResult String) : String :=
  joinNl (inlineCssOf doc ++ embeddedCssOf doc
    ++ fetchedCssTexts cssFetch (stylesheetUrls env base doc))

/-- Line 205: the `href` of every `link[href*='fonts.googleapis.com']`. -/
def googleHrefs (doc : Doc) : List String :=
  doc.filterMap
    (fun e =>
      if e.tag = "link" then
        match getAttr e "href" with
        | some href =>
          if hasSeg "fonts.googleapis.com".data href.data then some href else none
        | none => none
      else none)

/-- Lines 206-215 for one link: when the address has a `family=` capture,
`decodeURIComponent` it (a throw aborts the whole handler), split on `|`,
replace `+` by a space and add each name. -/
def googleStep (env : JsEnv) (fonts : List String) (href : String) : Option (List String) :=
  if href = "" then some fonts
  else
    match findFamilyCapture href.data with
    | some cap =>
      match env.decodeURI (⟨cap⟩ : String) with
      | some dec =>
        some ((splitOnChar '|' dec.data).foldl
          (fun s f => addUniq s (⟨f.map plusToSpace⟩ : String)) fonts)
      | none => none
    | none => some fonts

/-- The `.each` loop over the Google-Fonts links. -/
def googleFold (env : JsEnv) (fonts : List String) : List String → Option (List String)
  | [] => some fonts
  | h :: t =>
    match googleStep env fonts h with
    | some fonts2 => googleFold env fonts2 t
    | none => none

/-- Lines 122-224: everything after a successful document fetch. -/
def pipeline (env : JsEnv) (url : String) (doc : Doc)
    (cssFetch : String → FetchResult String) : ApiResult :=
  let combined := combinedCssOf env url doc cssFetch
  let images := (extractBackgroundImages env combined url).foldl addUniq
    (srcsetPass env url doc (imgPass env url doc []))
  let colors := (extractColors combined).foldl addUniq []
  let fonts0 := (extractFonts combined).foldl addUniq []
  match googleFold env fonts0 (googleHrefs doc) with
  | some fonts => .success images colors fonts
  | none => .internalErr

/-- The `POST` handler (route.ts lines 85-232).  Malformed JSON and every
uncaught exception land in the outer catch (status 500); a missing or
empty `url` and a `new URL(url)` failure yield status-400 validation
errors; a fetch rejection for the document is an uncaught exception; a
non-ok document response yields the status-502 upstream error carrying
`statusText`. -/
def POST (env : JsEnv) (body : ReqBody) (docFetch : FetchResult Doc)
    (cssFetch : String → FetchResult String) : ApiResult :=
  match body with
  | .badJson => .internalErr
  | .json none => .validationErr "URL is required"
  | .json (some url) =>
    if url = "" then .validationErr "URL is required"
    else if env.parseOk url then
      match docFetch with
      | .netErr => .internalErr
      | .resp st stx doc =>
        if respOk st then pipeline env url doc cssFetch
        else .upstreamErr ("Failed to fetch URL: " ++ stx)
    else .validationErr "Invalid URL format"

/-! Concrete environments and documents used by witnesses and
counterexamples. -/

/-- An environment where every URL parses, resolution returns the
reference unchanged, and decoding is the identity. -/
def idEnv : JsEnv where
  parseOk := fun _ => true
  resolve := fun rel _ => some rel
  decodeURI := fun s => some s

/-- A CSS fetch oracle that always fails at the network level. -/
def noFetch : String → FetchResult String := fun _ => FetchResult.netErr

/-- The per-URL contribution of one external stylesheet fetch to `allCss`
(used to restate `fetchedCssTexts` as an append-only fold). -/
def cssContrib (cssFetch : String → FetchResult String) (u : String) : List String :=
  match cssFetch u with
  | .resp st _ body => if respOk st ∧ body ≠ "" then [body] else []
  | .netErr => []

/-- A Google-Fonts stylesheet link and a fetch oracle that answers it
with CSS declaring the family `Zebra`. -/
def gHref : String := "https://fonts.googleapis.com/css?family=Roboto"

def linkG : Elem := ⟨"link", [("rel", "stylesheet"), ("href", gHref)], ""⟩

def docG : Doc := [linkG]

def fetchZ : String → FetchResult String :=
  fun u => if u = gHref then .resp 200 "OK" "font-family: Zebra" else .netErr

/-- Two plain stylesheet links of which the first fails to fetch. -/
def docC3 : Doc :=
  [⟨"link", [("rel", "stylesheet"), ("href", "A")], ""⟩,
   ⟨"link", [("rel", "stylesheet"), ("href", "B")], ""⟩]

def fetchC3 : String → FetchResult String :=
  fun u => if u = "B" then .resp 200 "OK" "font-family: Zeta" else .netErr

def txtC3 : String → String := fun u => if u = "B" then "font-family: Zeta" else ""

/-! ### Lemmas about the set model (`addUniq`, `dedupFirst`) -/

theorem mem_addUniq {α : Type} [DecidableEq α] {s : List α} {y x : α} :
    x ∈ addUniq s y ↔ x ∈ s ∨ x = y := by
  unfold addUniq
  split
  · rename_i hy
    constructor
    · exact Or.inl
    · rintro (h | rfl)
      · exact h
      · exact hy
  · simp [List.mem_append]

theorem subset_addUniq {α : Type} [DecidableEq α] (s : List α) (y : α) :
    s ⊆ addUniq s y :=
  fun _ hx => mem_addUniq.mpr (Or.inl hx)

theorem nodup_addUniq {α : Type} [DecidableEq α] {s : List α} (h : s.Nodup) (y : α) :
    (addUniq s y).Nodup := by
  unfold addUniq
  split
  · exact h
  · rename_i hy
    simp [List.nodup_append, h, hy]

theorem mem_foldl_addUniq {α : Type} [DecidableEq α] :
    ∀ (l : List α) (s : List α) (x : α), x ∈ l.foldl addUniq s ↔ x ∈ s ∨ x ∈ l := by
  intro l
  induction l with
  | nil => simp
  | cons y t ih =>
    intro s x
    simp only [List.foldl_cons, ih, mem_addUniq, List.mem_cons]
    tauto

theorem nodup_foldl_addUniq {α : Type} [DecidableEq α] :
    ∀ (l : List α) (s : List α), s.Nodup → (l.foldl addUniq s).Nodup := by
  intro l
  induction l with
  | nil => exact fun s h => h
  | cons y t ih => exact fun s h => ih _ (nodup_addUniq h y)

theorem dedupFirst_nil {α : Type} [DecidableEq α] :
    dedupFirst ([] : List α) = [] := by
  rw [dedupFirst]

theorem dedupFirst_cons {α : Type} [DecidableEq α] (x : α) (xs : List α) :
    dedupFirst (x :: xs) = x :: dedupFirst (xs.filter (fun y => y ≠ x)) := by
  rw [dedupFirst]

theorem mem_dedupFirst {α : Type} [DecidableEq α] :
    ∀ (l : List α) (x : α), x ∈ dedupFirst l ↔ x ∈ l := by
  intro l
  induction l using dedupFirst.induct with
  | case1 => simp [dedupFirst]
  | case2 y xs ih =>
    intro x
    rw [dedupFirst]
    simp only [List.mem_cons, ih, List.mem_filter]
    by_cases hxy : x = y <;> simp [hxy]

theorem nodup_dedupFirst {α : Type} [DecidableEq α] :
    ∀ (l : List α), (dedupFirst l).Nodup := by
  intro l
  induction l using dedupFirst.induct with
  | case1 => simp [dedupFirst]
  | case2 y xs ih =>
    rw [dedupFirst]
    refine List.Nodup.cons ?_ ih
    intro hy
    have := (mem_dedupFirst _ _).mp hy
    simp [List.mem_filter] at this

theorem foldl_addUniq_eq_append {α : Type} [DecidableEq α] :
    ∀ (l : List α) (s : List α),
      l.foldl addUniq s = s ++ dedupFirst (l.filter (fun x => x ∉ s)) := by
  intro l
  induction l with
  | nil => simp [dedupFirst]
  | cons y t ih =>
    intro s
    by_cases hy : y ∈ s
    · have h1 : addUniq s y = s := by simp [addUniq, hy]
      simp only [List.foldl_cons, h1, ih, List.filter_cons]
      simp [hy]
    · have h1 : addUniq s y = s ++ [y] := by simp [addUniq, hy]
      simp only [List.foldl_cons, h1, ih, List.filter_cons]
      have hyd : (decide (y ∉ s)) = true := by simp [hy]
      simp only [hyd, if_true]
      rw [dedupFirst_cons]
      have h2 : (t.filter (fun x => x ∉ s)).filter (fun x => x ≠ y)
          = t.filter (fun x => x ∉ s ++ [y]) := by
        rw [List.filter_filter]
        refine List.filter_congr ?_
        intro x _
        simp only [List.mem_append, List.mem_singleton, decide_not]
        by_cases h3 : x = y <;> by_cases h4 : x ∈ s <;> simp [h3, h4]
      rw [h2]
      simp

theorem foldl_addUniq_nil {α : Type} [DecidableEq α] (l : List α) :
    l.foldl addUniq [] = dedupFirst l := by
  rw [foldl_addUniq_eq_append]
  simp

/-! ### Character-class lemmas -/

theorem char_le_iff {a b : Char} : a ≤ b ↔ a.toNat ≤ b.toNat := Iff.rfl

theorem isWordChar_of_isHexDigit {c : Char} (h : isHexDigit c = true) :
    isWordChar c = true := by
  simp only [isHexDigit, Bool.or_eq_true, Bool.and_eq_true, decide_eq_true_eq,
    char_le_iff] at h
  simp only [isWordChar, Bool.or_eq_true, Bool.and_eq_true, decide_eq_true_eq,
    char_le_iff]
  have hf : ('f').toNat = 102 := rfl
  have hz : ('z').toNat = 122 := rfl
  have hF : ('F').toNat = 70 := rfl
  have hZ : ('Z').toNat = 90 := rfl
  rcases h with (⟨h1, h2⟩ | ⟨h1, h2⟩) | ⟨h1, h2⟩
  · tauto
  · have h2a : c.toNat ≤ ('z').toNat := by omega
    tauto
  · have h2a : c.toNat ≤ ('Z').toNat := by omega
    tauto

theorem upperHex_asciiUpper {c : Char} (h : isHexDigit c = true) :
    isUpperHexDigit (asciiUpper c) = true := by
  simp only [isHexDigit, Bool.or_eq_true, Bool.and_eq_true, decide_eq_true_eq,
    char_le_iff] at h
  have h0 : ('0').toNat = 48 := rfl
  have h9 : ('9').toNat = 57 := rfl
  have ha : ('a').toNat = 97 := rfl
  have hf : ('f').toNat = 102 := rfl
  have hz : ('z').toNat = 122 := rfl
  have hA : ('A').toNat = 65 := rfl
  have hF : ('F').toNat = 70 := rfl
  rcases h with (⟨h1, h2⟩ | ⟨h1, h2⟩) | ⟨h1, h2⟩
  · have hne : ¬ (('a' ≤ c && c ≤ 'z') = true) := by
      simp only [Bool.and_eq_true, decide_eq_true_eq, char_le_iff]
      intro hcon
      omega
    simp only [asciiUpper, if_neg hne]
    simp only [isUpperHexDigit, Bool.or_eq_true, Bool.and_eq_true, decide_eq_true_eq,
      char_le_iff]
    exact Or.inl ⟨h1, h2⟩
  · have hyes : (('a' ≤ c && c ≤ 'z') = true) := by
      simp only [Bool.and_eq_true, decide_eq_true_eq, char_le_iff]
      omega
    simp only [asciiUpper, if_pos hyes]
    rw [ha] at h1; rw [hf] at h2
    interval_cases h : c.toNat <;> decide
  · have hne : ¬ (('a' ≤ c && c ≤ 'z') = true) := by
      simp only [Bool.and_eq_true, decide_eq_true_eq, char_le_iff]
      intro hcon
      omega
    simp only [asciiUpper, if_neg hne]
    simp only [isUpperHexDigit, Bool.or_eq_true, Bool.and_eq_true, decide_eq_true_eq,
      char_le_iff]
    exact Or.inr ⟨h1, h2⟩

/-! ### Lemmas about the color scanner -/

theorem hexTake_sound :
    ∀ (n : Nat) (cs d r : List Char), hexTake n cs = some (d, r) →
      cs = d ++ r ∧ d.length = n ∧ ∀ c ∈ d, isHexDigit c = true := by
  intro n
  induction n with
  | zero =>
    intro cs d r h
    simp only [hexTake, Option.some_inj, Prod.mk.injEq] at h
    obtain ⟨rfl, rfl⟩ := h
    simp
  | succ m ih =>
    intro cs d r h
    cases cs with
    | nil => simp [hexTake] at h
    | cons c cs2 =>
      simp only [hexTake] at h
      by_cases hc : isHexDigit c = true
      · rw [if_pos hc] at h
        cases he : hexTake m cs2 with
        | none => rw [he] at h; simp at h
        | some p =>
          rw [he] at h
          simp only [Option.map_some', Option.some_inj, Prod.mk.injEq] at h
          obtain ⟨hd, hr⟩ := h
          obtain ⟨h1, h2, h3⟩ := ih cs2 p.1 p.2 (by rw [he])
          subst hd
          subst hr
          refine ⟨by simp [h1], by simp [h2], ?_⟩
          intro x hx
          rcases List.mem_cons.mp hx with rfl | hx2
          · exact hc
          · exact h3 x hx2
      · rw [if_neg hc] at h
        simp at h

theorem hexTake_complete :
    ∀ (d r : List Char), (∀ c ∈ d, isHexDigit c = true) →
      hexTake d.length (d ++ r) = some (d, r) := by
  intro d
  induction d with
  | nil => intro r _; simp [hexTake]
  | cons c d2 ih =>
    intro r hhex
    have hrest := ih r (fun x hx => hhex x (List.mem_cons_of_mem c hx))
    simp only [List.length_cons, List.cons_append, hexTake,
      if_pos (hhex c (List.mem_cons_self c d2)), List.append_eq]
    rw [hrest]
    rfl

theorem hexTake_none_of_boundary :
    ∀ (xs : List Char) (n : Nat) (r : List Char), xs.length < n →
      (∀ c ∈ xs, isHexDigit c = true) → wordBoundary r = true →
      hexTake n (xs ++ r) = none := by
  intro xs
  induction xs with
  | nil =>
    intro n r hn _ hb
    cases n with
    | zero => omega
    | succ m =>
      cases r with
      | nil => simp [hexTake]
      | cons c rr =>
        have hcw : isWordChar c = false := by
          simp only [wordBoundary, Bool.not_eq_true'] at hb
          exact hb
        have hch : isHexDigit c = false := by
          cases hhc : isHexDigit c with
          | false => rfl
          | true => rw [isWordChar_of_isHexDigit hhc] at hcw; cases hcw
        simp [hexTake, hch]
  | cons x xs2 ih =>
    intro n r hn hhex hb
    cases n with
    | zero => omega
    | succ m =>
      simp only [List.cons_append, hexTake,
        if_pos (hhex x (List.mem_cons_self x xs2)), List.append_eq]
      rw [ih m r (by simpa using hn) (fun c hc => hhex c (List.mem_cons_of_mem x hc)) hb]
      rfl

theorem tryColorAt_some_iff (cs d : List Char) :
    tryColorAt cs = some d ↔
      ∃ r, cs = d ++ r ∧ (d.length = 6 ∨ d.length = 3)
        ∧ (∀ c ∈ d, isHexDigit c = true) ∧ wordBoundary r = true := by
  constructor
  · intro h
    unfold tryColorAt at h
    split at h
    · rename_i d6 r6 heq6
      split at h
      · rename_i hb
        obtain rfl : d6 = d := Option.some_inj.mp h
        obtain ⟨hcs, hlen, hhex⟩ := hexTake_sound 6 cs d6 r6 heq6
        exact ⟨r6, hcs, Or.inl hlen, hhex, hb⟩
      · split at h
        · rename_i d3 r3 heq3
          split at h
          · rename_i hb3
            obtain rfl : d3 = d := Option.some_inj.mp h
            obtain ⟨hcs, hlen, hhex⟩ := hexTake_sound 3 cs d3 r3 heq3
            exact ⟨r3, hcs, Or.inr hlen, hhex, hb3⟩
          · cases h
        · cases h
    · split at h
      · rename_i d3 r3 heq3
        split at h
        · rename_i hb3
          obtain rfl : d3 = d := Option.some_inj.mp h
          obtain ⟨hcs, hlen, hhex⟩ := hexTake_sound 3 cs d3 r3 heq3
          exact ⟨r3, hcs, Or.inr hlen, hhex, hb3⟩
        · cases h
      · cases h
  · rintro ⟨r, rfl, hlen, hhex, hb⟩
    rcases hlen with h6 | h3
    · have hc : hexTake 6 (d ++ r) = some (d, r) := by
        rw [← h6]; exact hexTake_complete d r hhex
      unfold tryColorAt
      rw [hc]
      simp [hb]
    · have hn : hexTake 6 (d ++ r) = none :=
        hexTake_none_of_boundary d 6 r (by omega) hhex hb
      have hc : hexTake 3 (d ++ r) = some (d, r) := by
        rw [← h3]; exact hexTake_complete d r hhex
      unfold tryColorAt
      rw [hn, hc]
      simp [hb]

theorem mem_colorScan (t m : List Char) :
    m ∈ colorScan t ↔
      ∃ pre ds post, t = pre ++ '#' :: (ds ++ post) ∧ m = '#' :: ds
        ∧ (ds.length = 6 ∨ ds.length = 3) ∧ (∀ c ∈ ds, isHexDigit c = true)
        ∧ wordBoundary post = true := by
  constructor
  · intro hm
    induction t with
    | nil => simp [colorScan] at hm
    | cons c cs ih =>
      simp only [colorScan] at hm
      by_cases hc : c = '#'
      · rw [if_pos hc] at hm
        cases htr : tryColorAt cs with
        | some d =>
          rw [htr] at hm
          rcases List.mem_cons.mp hm with rfl | hm2
          · obtain ⟨r, hcs, hlen, hhex, hb⟩ := (tryColorAt_some_iff cs d).mp htr
            exact ⟨[], d, r, by rw [hc, hcs]; rfl, rfl, hlen, hhex, hb⟩
          · obtain ⟨pre, ds, post, hcs, hmeq, hlen, hhex, hb⟩ := ih hm2
            exact ⟨c :: pre, ds, post, by rw [hcs]; rfl, hmeq, hlen, hhex, hb⟩
        | none =>
          rw [htr] at hm
          obtain ⟨pre, ds, post, hcs, hmeq, hlen, hhex, hb⟩ := ih hm
          exact ⟨c :: pre, ds, post, by rw [hcs]; rfl, hmeq, hlen, hhex, hb⟩
      · rw [if_neg hc] at hm
        obtain ⟨pre, ds, post, hcs, hmeq, hlen, hhex, hb⟩ := ih hm
        exact ⟨c :: pre, ds, post, by rw [hcs]; rfl, hmeq, hlen, hhex, hb⟩
  · rintro ⟨pre, ds, post, rfl, rfl, hlen, hhex, hb⟩
    induction pre with
    | nil =>
      have htr : tryColorAt (ds ++ post) = some ds :=
        (tryColorAt_some_iff (ds ++ post) ds).mpr ⟨post, rfl, hlen, hhex, hb⟩
      simp only [List.nil_append, colorScan, if_pos rfl, htr]
      exact List.mem_cons_self _ _
    | cons p pre2 ih =>
      simp only [List.cons_append, colorScan]
      by_cases hp : p = '#'
      · rw [if_pos hp]
        cases htr : tryColorAt (pre2 ++ '#' :: (ds ++ post)) with
        | some d => exact List.mem_cons_of_mem _ ih
        | none => exact ih
      · rw [if_neg hp]
        exact ih

theorem normalizeColor_shape {ds : List Char}
    (hlen : ds.length = 6 ∨ ds.length = 3) (hhex : ∀ c ∈ ds, isHexDigit c = true) :
    ∃ es, normalizeColor ('#' :: ds) = '#' :: es ∧ es.length = 6
      ∧ ∀ c ∈ es, isUpperHexDigit c = true := by
  rcases hlen with h6 | h3
  · have hlen7 : ('#' :: ds).length ≠ 4 := by simp [h6]
    refine ⟨ds.map asciiUpper, ?_, by simp [h6], ?_⟩
    · unfold normalizeColor
      rw [if_neg hlen7]
      simp [show asciiUpper '#' = '#' from rfl]
    · intro c hc
      obtain ⟨a, ha, rfl⟩ := List.mem_map.mp hc
      exact upperHex_asciiUpper (hhex a ha)
  · obtain ⟨a, b, c, rfl⟩ := List.length_eq_three.mp h3
    have h1 : isHexDigit a = true := hhex a (by simp)
    have h2 : isHexDigit b = true := hhex b (by simp)
    have h3 : isHexDigit c = true := hhex c (by simp)
    refine ⟨[a, a, b, b, c, c].map asciiUpper, ?_, by simp, ?_⟩
    · unfold normalizeColor
      rw [if_pos (by simp)]
      simp [show asciiUpper '#' = '#' from rfl]
    · intro x hx
      obtain ⟨y, hy, rfl⟩ := List.mem_map.mp hx
      have : isHexDigit y = true := by
        simp only [List.mem_cons, List.not_mem_nil, or_false] at hy
        rcases hy with rfl | rfl | rfl | rfl | rfl | rfl <;> assumption
      exact upperHex_asciiUpper this

/-! ### Locality of the color scanner at `join("\n")` boundaries -/

theorem hexTake_append_of_some {n : Nat} :
    ∀ {xs d r : List Char} (ys : List Char), hexTake n xs = some (d, r) →
      hexTake n (xs ++ ys) = some (d, r ++ ys) := by
  induction n with
  | zero =>
    intro xs d r ys h
    simp only [hexTake, Option.some_inj, Prod.mk.injEq] at h
    obtain ⟨rfl, rfl⟩ := h
    simp [hexTake]
  | succ m ih =>
    intro xs d r ys h
    cases xs with
    | nil => simp [hexTake] at h
    | cons c cs2 =>
      simp only [hexTake] at h
      by_cases hc : isHexDigit c = true
      · rw [if_pos hc] at h
        cases he : hexTake m cs2 with
        | none => rw [he] at h; simp at h
        | some p =>
          rw [he] at h
          simp only [Option.map_some', Option.some_inj, Prod.mk.injEq] at h
          obtain ⟨hd, hr⟩ := h
          simp only [List.cons_append, hexTake, if_pos hc, List.append_eq]
          rw [ih ys he]
          simp [hd, hr]
      · rw [if_neg hc] at h
        simp at h

theorem hexTake_nl_of_none {n : Nat} :
    ∀ {xs : List Char} (ys : List Char), hexTake n xs = none →
      hexTake n (xs ++ '\n' :: ys) = none := by
  induction n with
  | zero => intro xs ys h; simp [hexTake] at h
  | succ m ih =>
    intro xs ys h
    cases xs with
    | nil =>
      simp only [List.nil_append, hexTake]
      rw [if_neg (by decide)]
    | cons c cs2 =>
      simp only [hexTake] at h
      by_cases hc : isHexDigit c = true
      · rw [if_pos hc] at h
        cases he : hexTake m cs2 with
        | none =>
          simp only [List.cons_append, hexTake, if_pos hc, List.append_eq]
          rw [ih ys he]
          rfl
        | some p => rw [he] at h; simp at h
      · simp only [List.cons_append, hexTake, if_neg hc]

theorem wordBoundary_append_nl (r ys : List Char) :
    wordBoundary (r ++ '\n' :: ys) = wordBoundary r := by
  cases r with
  | nil => simp [wordBoundary, isWordChar]
  | cons c cs => simp [wordBoundary]

theorem tryColorAt_append_nl (a b : List Char) :
    tryColorAt (a ++ '\n' :: b) = tryColorAt a := by
  unfold tryColorAt
  cases h6 : hexTake 6 a with
  | some p =>
    rw [hexTake_append_of_some ('\n' :: b) (by rw [h6])]
    simp only [wordBoundary_append_nl]
    cases hb : wordBoundary p.2 with
    | true => rfl
    | false =>
      simp only [Bool.false_eq_true, if_false]
      cases h3 : hexTake 3 a with
      | some q =>
        rw [hexTake_append_of_some ('\n' :: b) (by rw [h3])]
        simp only [wordBoundary_append_nl]
      | none => rw [hexTake_nl_of_none b h3]
  | none =>
    rw [hexTake_nl_of_none b h6]
    cases h3 : hexTake 3 a with
    | some q =>
      rw [hexTake_append_of_some ('\n' :: b) (by rw [h3])]
      simp only [wordBoundary_append_nl]
    | none => rw [hexTake_nl_of_none b h3]

theorem colorScan_append_nl (a b : List Char) :
    colorScan (a ++ '\n' :: b) = colorScan a ++ colorScan b := by
  induction a with
  | nil =>
    simp only [List.nil_append, colorScan]
    rw [if_neg (by decide)]
  | cons c a2 ih =>
    show colorScan (c :: (a2 ++ '\n' :: b)) = colorScan (c :: a2) ++ colorScan b
    simp only [colorScan]
    by_cases hc : c = '#'
    · rw [if_pos hc, if_pos hc, tryColorAt_append_nl]
      cases htr : tryColorAt a2 with
      | some d =>
        rw [ih]
        rfl
      | none => exact ih
    · rw [if_neg hc, if_neg hc]
      exact ih

theorem colorScan_joinNl :
    ∀ (l : List String), colorScan (joinNl l).data = (l.map (fun s => colorScan s.data)).flatten := by
  intro l
  induction l with
  | nil => simp [joinNl, colorScan]
  | cons x xs ih =>
    cases xs with
    | nil => simp [joinNl]
    | cons y t =>
      have hdata : (joinNl (x :: y :: t)).data
          = x.data ++ '\n' :: (joinNl (y :: t)).data := by
        show (x ++ "\n" ++ joinNl (y :: t)).data = _
        simp [String.data_append]
      rw [hdata, colorScan_append_nl, ih]
      simp

/-! ### Membership and shape of `extractColors` output -/

theorem mem_extractColors_iff (text : String) (m : String) :
    m ∈ extractColors text ↔
      ∃ pre ds post, text.data = pre ++ '#' :: (ds ++ post)
        ∧ (ds.length = 3 ∨ ds.length = 6) ∧ (∀ c ∈ ds, isHexDigit c = true)
        ∧ wordBoundary post = true
        ∧ m = (⟨normalizeColor ('#' :: ds)⟩ : String) := by
  unfold extractColors
  rw [List.mem_map]
  constructor
  · rintro ⟨m0, hm0, rfl⟩
    obtain ⟨pre, ds, post, ht, rfl, hlen, hhex, hb⟩ := (mem_colorScan text.data m0).mp hm0
    exact ⟨pre, ds, post, ht, hlen.symm, hhex, hb, rfl⟩
  · rintro ⟨pre, ds, post, ht, hlen, hhex, hb, rfl⟩
    refine ⟨'#' :: ds, ?_, rfl⟩
    exact (mem_colorScan text.data ('#' :: ds)).mpr ⟨pre, ds, post, ht, rfl, hlen.symm, hhex, hb⟩

theorem extractColors_shape {text m : String} (h : m ∈ extractColors text) :
    ∃ es, m.data = '#' :: es ∧ es.length = 6 ∧ ∀ c ∈ es, isUpperHexDigit c = true := by
  unfold extractColors at h
  obtain ⟨m0, hm0, rfl⟩ := List.mem_map.mp h
  obtain ⟨pre, ds, post, ht, rfl, hlen, hhex, hb⟩ := (mem_colorScan text.data m0).mp hm0
  obtain ⟨es, hes, hlen6, hupper⟩ := normalizeColor_shape hlen hhex
  exact ⟨es, hes, hlen6, hupper⟩

/-! ### Inversion of a successful run of the handler -/

theorem pipeline_success_inv {env : JsEnv} {url : String} {doc : Doc}
    {cssFetch : String → FetchResult String} {i c f : List String}
    (h : pipeline env url doc cssFetch = .success i c f) :
    i = (extractBackgroundImages env (combinedCssOf env url doc cssFetch) url).foldl addUniq
          (srcsetPass env url doc (imgPass env url doc []))
    ∧ c = (extractColors (combinedCssOf env url doc cssFetch)).foldl addUniq []
    ∧ googleFold env ((extractFonts (combinedCssOf env url doc cssFetch)).foldl addUniq [])
        (googleHrefs doc) = some f := by
  simp only [pipeline] at h
  split at h
  · rename_i fonts hg
    injection h with h1 h2 h3
    subst h1; subst h2; subst h3
    exact ⟨rfl, rfl, hg⟩
  · cases h

theorem POST_success_inv {env : JsEnv} {url : String} {docFetch : FetchResult Doc}
    {cssFetch : String → FetchResult String} {i c f : List String}
    (h : POST env (.json (some url)) docFetch cssFetch = .success i c f) :
    ∃ st stx doc, docFetch = .resp st stx doc ∧ url ≠ "" ∧ env.parseOk url = true
      ∧ respOk st = true ∧ pipeline env url doc cssFetch = .success i c f := by
  cases docFetch with
  | netErr =>
    simp only [POST] at h
    split at h
    · cases h
    · split at h
      · cases h
      · cases h
  | resp st stx doc =>
    simp only [POST] at h
    split at h
    · cases h
    · rename_i hurl
      split at h
      · rename_i hparse
        split at h
        · rename_i hok
          exact ⟨st, stx, doc, rfl, hurl, hparse, hok, h⟩
        · cases h
      · cases h

/-! ### Claim C4 -/

/-- C4: `extractColors` matches exactly the word-bounded tokens of `#`
followed by exactly 3 or exactly 6 hexadecimal digits (the `\b` boundary
after the digits: the next character is not a word character, or the text
ends), and every element of its output is `#` followed by six uppercase
hexadecimal digits — a 3-digit match expanded by doubling each digit, a
6-digit match uppercased — so `#1AF` yields `#11AAFF`. -/
theorem claim_C4 :
    (∀ (text m : String),
        m ∈ extractColors text ↔
          ∃ pre ds post, text.data = pre ++ '#' :: (ds ++ post)
            ∧ (ds.length = 3 ∨ ds.length = 6) ∧ (∀ c ∈ ds, isHexDigit c = true)
            ∧ wordBoundary post = true
            ∧ m = (⟨normalizeColor ('#' :: ds)⟩ : String))
    ∧ (∀ (text m : String), m ∈ extractColors text →
        ∃ es, m.data = '#' :: es ∧ es.length = 6 ∧ ∀ c ∈ es, isUpperHexDigit c = true)
    ∧ extractColors "#1AF" = ["#11AAFF"] :=
  ⟨mem_extractColors_iff, fun _ _ h => extractColors_shape h, by decide⟩

/-- Witness for C4 at a concrete input: the shape statement applied to the
match of `#abc`. -/
theorem claim_C4_witness :
    ("#AABBCC" : String) ∈ extractColors "x #abc y"
    ∧ ∃ es, ("#AABBCC" : String).data = '#' :: es ∧ es.length = 6
        ∧ ∀ c ∈ es, isUpperHexDigit c = true :=
  ⟨by decide, claim_C4.2.1 "x #abc y" "#AABBCC" (by decide)⟩

/-! ### Claim C5 -/

/-- C5 counterexample: the sequence returned by `extractColors` can
contain duplicate entries — the extractor itself does not deduplicate
(deduplication only happens when the orchestrator merges into the color
set). -/
theorem claim_C5_counterexample :
    extractColors "#fff #fff" = ["#FFFFFF", "#FFFFFF"]
    ∧ ¬ (extractColors "#fff #fff").Nodup := by
  constructor
  · decide
  · decide

/-- C5 amended: `extractColors` itself returns every match in occurrence
order, duplicates included; it is the orchestrator merge into the color
set that deduplicates (case-insensitively — automatic, since all entries
are normalized to uppercase), keeping entries in order of first
occurrence in the text. -/
theorem claim_C5_amended :
    ∀ (env : JsEnv) (url : String) (doc : Doc) (st : Nat) (stx : String)
      (cssFetch : String → FetchResult String) (i c f : List String),
      POST env (.json (some url)) (.resp st stx doc) cssFetch = .success i c f →
      c = dedupFirst (extractColors (combinedCssOf env url doc cssFetch))
      ∧ c.Nodup
      ∧ (∀ x, x ∈ c ↔ x ∈ extractColors (combinedCssOf env url doc cssFetch)) := by
  intro env url doc st stx cssFetch i c f h
  obtain ⟨st2, stx2, doc2, heq, _, _, _, hpipe⟩ := POST_success_inv h
  obtain ⟨hst, hstx, hdoc⟩ : st2 = st ∧ stx2 = stx ∧ doc2 = doc := by
    injection heq with h1 h2 h3
    exact ⟨h1.symm, h2.symm, h3.symm⟩
  subst hst; subst hstx; subst hdoc
  obtain ⟨_, hc, _⟩ := pipeline_success_inv hpipe
  subst hc
  refine ⟨foldl_addUniq_nil _, nodup_foldl_addUniq _ _ List.nodup_nil, ?_⟩
  intro x
  rw [mem_foldl_addUniq]
  simp

/-- Witness for C5 amended at a concrete successful run. -/
theorem claim_C5_amended_witness :
    POST idEnv (.json (some "http://a/")) (.resp 200 "OK"
        [⟨"style", [], "p \x7b color: #1af; border: #1AF \x7d"⟩]) noFetch
      = .success [] ["#11AAFF"] []
    ∧ (["#11AAFF"] : List String)
        = dedupFirst (extractColors (combinedCssOf idEnv "http://a/"
            [⟨"style", [], "p \x7b color: #1af; border: #1AF \x7d"⟩] noFetch))
      ∧ (["#11AAFF"] : List String).Nodup
      ∧ (∀ x, x ∈ (["#11AAFF"] : List String)
          ↔ x ∈ extractColors (combinedCssOf idEnv "http://a/"
              [⟨"style", [], "p \x7b color: #1af; border: #1AF \x7d"⟩] noFetch)) :=
  ⟨by decide,
   claim_C5_amended idEnv "http://a/"
     [⟨"style", [], "p \x7b color: #1af; border: #1AF \x7d"⟩] 200 "OK" noFetch
     [] ["#11AAFF"] [] (by decide)⟩

/-! ### Claim C9 -/

/-- C9 counterexample: the pattern extractors are not order-insensitive
over the concatenated corpus.  A `font-family` declaration split across
two fragments matches in one concatenation order and not in the other, so
the font extractor yields different result sets for a permutation of the
fragment list. -/
theorem claim_C9_counterexample :
    (["font-family", ": Ar"] : List String).Perm [": Ar", "font-family"]
    ∧ extractFonts (joinNl ["font-family", ": Ar"]) = ["Ar"]
    ∧ extractFonts (joinNl [": Ar", "font-family"]) = [] :=
  ⟨List.Perm.swap ": Ar" "font-family" [], by decide, by decide⟩

/-- C9 amended: only the color extractor is order-insensitive over the
combined corpus: its match set is invariant under permutation of the
fragment list (no color match can span the `"\n"` joints).  The font and
background-image extractors are not order-insensitive, because their
captures can span fragment boundaries. -/
theorem claim_C9_amended :
    ∀ (l1 l2 : List String), l1.Perm l2 →
      ∀ x, x ∈ extractColors (joinNl l1) ↔ x ∈ extractColors (joinNl l2) := by
  have key : ∀ (l : List String) (x : String),
      x ∈ extractColors (joinNl l) ↔ ∃ s ∈ l, x ∈ extractColors s := by
    intro l x
    unfold extractColors
    rw [List.mem_map]
    constructor
    · rintro ⟨m, hm, rfl⟩
      rw [colorScan_joinNl, List.mem_flatten] at hm
      obtain ⟨L, hL, hmL⟩ := hm
      obtain ⟨s, hs, rfl⟩ := List.mem_map.mp hL
      exact ⟨s, hs, List.mem_map.mpr ⟨m, hmL, rfl⟩⟩
    · rintro ⟨s, hs, hx⟩
      obtain ⟨m, hm, rfl⟩ := List.mem_map.mp hx
      refine ⟨m, ?_, rfl⟩
      rw [colorScan_joinNl, List.mem_flatten]
      exact ⟨colorScan s.data, List.mem_map.mpr ⟨s, hs, rfl⟩, hm⟩
  intro l1 l2 hperm x
  rw [key l1 x, key l2 x]
  constructor
  · rintro ⟨s, hs, hx⟩
    exact ⟨s, hperm.subset hs, hx⟩
  · rintro ⟨s, hs, hx⟩
    exact ⟨s, hperm.symm.subset hs, hx⟩

/-! ### Generic fold inversions and the `extractFonts` bridge -/

theorem foldl_mem_inv {α β : Type} (step : List α → β → List α) {P : α → Prop}
    (H : ∀ s b x, x ∈ step s b → x ∈ s ∨ P x) :
    ∀ (l : List β) (s : List α) (x : α), x ∈ l.foldl step s → x ∈ s ∨ P x := by
  intro l
  induction l with
  | nil => exact fun s x hx => Or.inl hx
  | cons b t ih =>
    intro s x hx
    rcases ih (step s b) x hx with h | h
    · exact H s b x h
    · exact Or.inr h

theorem foldl_nodup_inv {α β : Type} (step : List α → β → List α)
    (H : ∀ s b, s.Nodup → (step s b).Nodup) :
    ∀ (l : List β) (s : List α), s.Nodup → (l.foldl step s).Nodup := by
  intro l
  induction l with
  | nil => exact fun s hs => hs
  | cons b t ih => exact fun s hs => ih (step s b) (H s b hs)

theorem foldl_filterMapStep {α β : Type} [DecidableEq α] (g : β → Option α) :
    ∀ (l : List β) (s : List α),
      l.foldl (fun s b => match g b with | some y => addUniq s y | none => s) s
        = (l.filterMap g).foldl addUniq s := by
  intro l
  induction l with
  | nil => intro s; rfl
  | cons b t ih =>
    intro s
    simp only [List.foldl_cons, List.filterMap_cons]
    cases hg : g b with
    | some y => simp only [List.foldl_cons]; exact ih (addUniq s y)
    | none => exact ih s

theorem foldl_flatMapFold {α β : Type} [DecidableEq α] (h : β → List α) :
    ∀ (l : List β) (s : List α),
      l.foldl (fun s v => (h v).foldl addUniq s) s = (l.flatMap h).foldl addUniq s := by
  intro l
  induction l with
  | nil => intro s; rfl
  | cons v t ih =>
    intro s
    simp only [List.foldl_cons, List.flatMap_cons, List.foldl_append]
    exact ih ((h v).foldl addUniq s)

theorem foldl_iteStep {α β : Type} [DecidableEq α] (cond : β → Bool) (val : β → α) :
    ∀ (l : List β) (s : List α),
      l.foldl (fun s b => if cond b = true then addUniq s (val b) else s) s
        = (l.filterMap (fun b => if cond b = true then some (val b) else none)).foldl
            addUniq s := by
  intro l
  induction l with
  | nil => intro s; rfl
  | cons b t ih =>
    intro s
    simp only [List.foldl_cons, List.filterMap_cons]
    by_cases hc : cond b = true
    · simp only [hc, if_true, List.foldl_cons]
      exact ih (addUniq s (val b))
    · simp only [hc, if_false]
      exact ih s

theorem foldl_iteNested {α β γ : Type} [DecidableEq α]
    (split : β → List γ) (cond : γ → Bool) (val : γ → α) :
    ∀ (l : List β) (s : List α),
      l.foldl (fun s v =>
          (split v).foldl (fun s b => if cond b = true then addUniq s (val b) else s) s) s
        = (l.flatMap (fun v =>
            (split v).filterMap (fun b => if cond b = true then some (val b) else none))).foldl
            addUniq s := by
  intro l
  induction l with
  | nil => intro s; rfl
  | cons v t ih =>
    intro s
    simp only [List.foldl_cons, List.flatMap_cons, List.foldl_append]
    rw [foldl_iteStep cond val (split v) s]
    exact ih _

/-- The set `extractFonts` builds equals the deduplicated concatenation of the two
declarative pass contributions. -/
theorem extractFonts_eq (css : String) :
    extractFonts css
      = (dedupFirst (pass1Entries css ++ pass2Entries css)).map
          (fun l => (⟨l⟩ : String)) := by
  unfold extractFonts pass1Entries pass2Entries
  dsimp only
  rw [foldl_iteNested (fun v => splitOnChar ',' (listTrim v))
      (fun tok => decide (cleanToken tok ≠ []) && !isCssWideKeyword (cleanToken tok))
      (fun tok => cleanToken tok)]
  suffices h : ∀ (bs S : List (List Char)),
      bs.foldl (fun s body =>
        match findInnerFamily body with
        | some cap => addUniq s (listTrim cap)
        | none => s) S
      = (bs.filterMap (fun b => (findInnerFamily b).map listTrim)).foldl addUniq S by
    rw [h, ← List.foldl_append, foldl_addUniq_nil]
  intro bs
  induction bs with
  | nil => intro S; rfl
  | cons b t ih =>
    intro S
    simp only [List.foldl_cons, List.filterMap_cons]
    cases hg : findInnerFamily b with
    | some cap =>
      simp only [hg, Option.map_some', List.foldl_cons]
      exact ih _
    | none =>
      simp only [hg, Option.map_none']
      exact ih S

/-- Witness for C9 amended on a concrete permutation. -/
theorem claim_C9_amended_witness :
    (["#abc", "x"] : List String).Perm ["x", "#abc"]
    ∧ (∀ x, x ∈ extractColors (joinNl ["#abc", "x"])
        ↔ x ∈ extractColors (joinNl ["x", "#abc"])) :=
  ⟨List.Perm.swap "x" "#abc" [],
   claim_C9_amended ["#abc", "x"] ["x", "#abc"] (List.Perm.swap "x" "#abc" [])⟩

/-! ### Claim C6 -/

/-- C6 counterexample: pass 1 does not strip surrounding whitespace from a
quoted token — the code trims first and only then deletes quote
characters, so whitespace inside the quotes survives.  On
`font-family: " A "` the added entry is `" A "` (with its spaces), not
`"A"` as stripping surrounding quotes and whitespace would give. -/
theorem claim_C6_counterexample :
    extractFonts "font-family: \x22 A \x22" = [" A "]
    ∧ (∀ f, f ∈ extractFonts "font-family: \x22 A \x22" → f ≠ "A")
    ∧ listTrim (" A " : String).data ≠ (" A " : String).data := by
  refine ⟨by decide, by decide, by decide⟩

/-- C6 amended: for every `font-family: <value>` declaration, the value is
split on commas; each token is trimmed and then every quote character is
deleted (interior quotes included; whitespace that was inside quotes is
preserved); empty tokens and the case-insensitive CSS-wide keywords
`inherit`, `initial`, `unset`, `none` are discarded, and the rest is
added; `font-family: Arial, sans-serif` yields exactly `Arial` and
`sans-serif`, and `font-family: inherit` yields no entry. -/
theorem claim_C6_amended :
    (∀ css : String,
        extractFonts css
          = (dedupFirst (pass1Entries css ++ pass2Entries css)).map
              (fun l => (⟨l⟩ : String)))
    ∧ extractFonts "font-family: Arial, sans-serif" = ["Arial", "sans-serif"]
    ∧ extractFonts "font-family: inherit" = [] :=
  ⟨extractFonts_eq, by decide, by decide⟩

/-! ### Helpers for locating a declaration inside a block -/

theorem dropWhile_append_stop {p : Char → Bool} :
    ∀ (l : List Char) (d : Char) (r : List Char),
      (∀ c ∈ l, p c = true) → p d = false →
      (l ++ d :: r).dropWhile p = d :: r := by
  intro l
  induction l with
  | nil =>
    intro d r _ hd
    simp [List.dropWhile_cons, hd]
  | cons c t ih =>
    intro d r hl hd
    have hc : p c = true := hl c (List.mem_cons_self c t)
    simp only [List.cons_append, List.dropWhile_cons, hc, if_true]
    exact ih d r (fun x hx => hl x (List.mem_cons_of_mem c hx)) hd

theorem takeWhile_append_stop {p : Char → Bool} :
    ∀ (l : List Char) (d : Char) (r : List Char),
      (∀ c ∈ l, p c = true) → p d = false →
      (l ++ d :: r).takeWhile p = l := by
  intro l
  induction l with
  | nil =>
    intro d r _ hd
    simp [List.takeWhile_cons, hd]
  | cons c t ih =>
    intro d r hl hd
    have hc : p c = true := hl c (List.mem_cons_self c t)
    simp only [List.cons_append, List.takeWhile_cons, hc, if_true]
    rw [ih d r (fun x hx => hl x (List.mem_cons_of_mem c hx)) hd]

theorem ciPrefix_refl : ∀ (pat tail : List Char), ciPrefix pat (pat ++ tail) = some tail := by
  intro pat
  induction pat with
  | nil => intro tail; rfl
  | cons p ps ih =>
    intro tail
    simp only [List.cons_append, ciPrefix, if_pos rfl]
    exact ih tail

theorem ciPrefix_cons_ne {p c : Char} (ps cs : List Char) (h : asciiLower c ≠ asciiLower p) :
    ciPrefix (p :: ps) (c :: cs) = none := by
  simp [ciPrefix, h]

theorem ciPrefix_sound :
    ∀ (pat l rest : List Char), ciPrefix pat l = some rest →
      ∃ lit, l = lit ++ rest ∧ lit.map asciiLower = pat.map asciiLower := by
  intro pat
  induction pat with
  | nil =>
    intro l rest h
    obtain rfl : l = rest := Option.some_inj.mp h
    exact ⟨[], rfl, rfl⟩
  | cons p ps ih =>
    intro l rest h
    cases l with
    | nil => simp [ciPrefix] at h
    | cons c cs =>
      simp only [ciPrefix] at h
      by_cases hc : asciiLower c = asciiLower p
      · rw [if_pos hc] at h
        obtain ⟨lit, rfl, hmap⟩ := ih cs rest h
        exact ⟨c :: lit, rfl, by simp [hmap, hc]⟩
      · rw [if_neg hc] at h
        cases h

theorem takeWhile_append_all {p : Char → Bool} :
    ∀ (l r : List Char), (∀ c ∈ l, p c = true) →
      (l ++ r).takeWhile p = l ++ r.takeWhile p := by
  intro l
  induction l with
  | nil => intro r _; rfl
  | cons c t ih =>
    intro r hl
    have hc : p c = true := hl c (List.mem_cons_self c t)
    simp only [List.cons_append, List.takeWhile_cons, hc, if_true]
    rw [ih r (fun x hx => hl x (List.mem_cons_of_mem c hx))]

theorem isPrefixOf_append_true : ∀ (l t : List Char), l.isPrefixOf (l ++ t) = true := by
  intro l
  induction l with
  | nil =>
    intro t
    cases t with
    | nil => rfl
    | cons c cs => rfl
  | cons c cs ih =>
    intro t
    simp [List.isPrefixOf, ih t]

theorem findInnerFamily_skip2 :
    ∀ (pre tail : List Char),
      hasSeg "font-family".data ((pre ++ "font-famil".data).map asciiLower) = false →
      findInnerFamily (pre ++ ("font-family".data ++ tail))
        = findInnerFamily ("font-family".data ++ tail) := by
  intro pre
  induction pre with
  | nil => intro tail _; rfl
  | cons c pre2 ih =>
    intro tail hno
    have hmapcons : ((c :: pre2) ++ "font-famil".data).map asciiLower
        = asciiLower c :: ((pre2 ++ "font-famil".data).map asciiLower) := by
      simp
    rw [hmapcons] at hno
    simp only [hasSeg, Bool.or_eq_false_iff] at hno
    show findInnerFamily (c :: (pre2 ++ ("font-family".data ++ tail))) = _
    have hci : ciPrefix "font-family".data
        (c :: (pre2 ++ ("font-family".data ++ tail))) = none := by
      cases hcp : ciPrefix "font-family".data
          (c :: (pre2 ++ ("font-family".data ++ tail))) with
      | none => rfl
      | some rest2 =>
        exfalso
        obtain ⟨lit, heq, hmap⟩ := ciPrefix_sound _ _ _ hcp
        have hlow : "font-family".data.map asciiLower = "font-family".data := by decide
        have hmapl : lit.map asciiLower = "font-family".data := by rw [hmap, hlow]
        have hlen : lit.length = 11 := by
          have h1 := congrArg List.length hmapl
          simpa using h1
        have hsplit : "font-family".data = "font-famil".data ++ ['\x79'] := by decide
        have hAeq : c :: (pre2 ++ ("font-family".data ++ tail))
            = (c :: (pre2 ++ "font-famil".data)) ++ ('\x79' :: tail) := by
          rw [hsplit]
          simp
        have hpre11 : (c :: (pre2 ++ ("font-family".data ++ tail))).take 11 = lit := by
          rw [heq, ← hlen, List.take_left]
        have h10 : ("font-famil".data).length = 10 := by decide
        have hAlen : 11 ≤ (c :: (pre2 ++ "font-famil".data)).length := by
          simp [List.length_cons, List.length_append, h10]
        have htake : (c :: (pre2 ++ ("font-family".data ++ tail))).take 11
            = (c :: (pre2 ++ "font-famil".data)).take 11 := by
          rw [hAeq, List.take_append_of_le_length hAlen]
        have hlit_take : lit = (c :: (pre2 ++ "font-famil".data)).take 11 := by
          rw [← hpre11, htake]
        have hsuf : (c :: (pre2 ++ "font-famil".data))
            = lit ++ (c :: (pre2 ++ "font-famil".data)).drop 11 := by
          conv_lhs => rw [← List.take_append_drop 11 (c :: (pre2 ++ "font-famil".data))]
          rw [← hlit_take]
        have hIsPre : "font-family".data.isPrefixOf
            ((c :: (pre2 ++ "font-famil".data)).map asciiLower) = true := by
          conv_lhs => rw [hsuf]
          rw [List.map_append, hmapl]
          exact isPrefixOf_append_true _ _
        rw [List.map_cons] at hIsPre
        rw [hno.1] at hIsPre
        exact Bool.false_ne_true hIsPre
    simp only [findInnerFamily, hci]
    exact ih tail hno.2

theorem innerFamilyAfter_quoted (ws1 ws2 name rest : List Char) (qc : Char)
    (hq : qc = '\x27' ∨ qc = '"')
    (hws1 : ∀ c ∈ ws1, isWs c = true) (hws2 : ∀ c ∈ ws2, isWs c = true)
    (hname : name ≠ []) (hnm : ∀ c ∈ name, stopQuoted c = false) :
    innerFamilyAfter (ws1 ++ ':' :: (ws2 ++ qc :: (name ++ qc :: rest)))
      = some name := by
  have hqws : isWs qc = false := by rcases hq with rfl | rfl <;> decide
  have hqstop : stopQuoted qc = true := by rcases hq with rfl | rfl <;> decide
  have hqq : (qc = '\x27' || qc = '"') = true := by rcases hq with rfl | rfl <;> decide
  unfold innerFamilyAfter
  rw [dropWhile_append_stop ws1 ':' _ hws1 (by decide)]
  have htk : (ws2 ++ qc :: (name ++ qc :: rest)).takeWhile isWs = ws2 :=
    takeWhile_append_stop ws2 qc _ hws2 hqws
  have hdr : (ws2 ++ qc :: (name ++ qc :: rest)).dropWhile isWs
      = qc :: (name ++ qc :: rest) :=
    dropWhile_append_stop ws2 qc _ hws2 hqws
  have hrun : (name ++ qc :: rest).takeWhile (fun c => !stopQuoted c) = name :=
    takeWhile_append_stop name qc rest
      (fun c hc => by rw [hnm c hc]; rfl) (by rw [hqstop]; rfl)
  simp only [htk, hdr, hrun]
  simp [hqq, hname]

theorem innerFamilyAfter_unquoted (ws1 ws2 : List Char) (n0 : Char) (name2 rest : List Char)
    (hws1 : ∀ c ∈ ws1, isWs c = true) (hws2 : ∀ c ∈ ws2, isWs c = true)
    (hnm : ∀ c ∈ n0 :: name2, stopQuoted c = false)
    (hhead : (n0 :: name2).takeWhile isWs = [])
    (hrest : rest.takeWhile (fun c => !stopQuoted c) = []) :
    innerFamilyAfter (ws1 ++ ':' :: (ws2 ++ ((n0 :: name2) ++ rest)))
      = some (n0 :: name2) := by
  have h0 : stopQuoted n0 = false := hnm n0 (List.mem_cons_self n0 name2)
  have hq1 : (n0 = '\x27' || n0 = '"') = false := by
    simp only [stopQuoted, Bool.or_eq_false_iff] at h0
    obtain ⟨⟨ha, hb⟩, hc⟩ := h0
    simp [ha, hb]
  have hn0 : isWs n0 = false := by
    by_cases h : isWs n0 = true
    · simp [List.takeWhile_cons, h] at hhead
    · exact Bool.eq_false_iff.mpr h
  simp only [List.cons_append]
  unfold innerFamilyAfter
  rw [dropWhile_append_stop ws1 ':' _ hws1 (by decide)]
  have htk : (ws2 ++ n0 :: (name2 ++ rest)).takeWhile isWs = ws2 :=
    takeWhile_append_stop ws2 n0 _ hws2 hn0
  have hdr : (ws2 ++ n0 :: (name2 ++ rest)).dropWhile isWs = n0 :: (name2 ++ rest) :=
    dropWhile_append_stop ws2 n0 _ hws2 hn0
  have hrun : (n0 :: (name2 ++ rest)).takeWhile (fun c => !stopQuoted c) = n0 :: name2 := by
    have hcons : ((n0 :: name2) ++ rest).takeWhile (fun c => !stopQuoted c)
        = (n0 :: name2) ++ rest.takeWhile (fun c => !stopQuoted c) :=
      takeWhile_append_all (n0 :: name2) rest (fun c hc => by rw [hnm c hc]; rfl)
    rw [List.cons_append] at hcons
    rw [hcons, hrest, List.append_nil]
  simp only [htk, hdr, hrun]
  simp [hq1]

theorem findInnerFamily_at (tail cap : List Char)
    (h : innerFamilyAfter tail = some cap) :
    findInnerFamily ("font-family".data ++ tail) = some cap := by
  have hsplit : "font-family".data ++ tail = 'f' :: ("ont-family".data ++ tail) := rfl
  rw [hsplit]
  have hci : ciPrefix "font-family".data ('f' :: ("ont-family".data ++ tail))
      = some tail := by
    rw [← hsplit]
    exact ciPrefix_refl _ _
  simp only [findInnerFamily, hci, h]

theorem mem_extractFonts_of_block {css : String} {b cap : List Char}
    (hb : b ∈ scanBlocks css.data.length css.data)
    (hcap : findInnerFamily b = some cap) :
    (⟨listTrim cap⟩ : String) ∈ extractFonts css := by
  rw [extractFonts_eq]
  refine List.mem_map.mpr ⟨listTrim cap, ?_, rfl⟩
  rw [mem_dedupFirst]
  refine List.mem_append.mpr (Or.inr ?_)
  exact List.mem_filterMap.mpr ⟨b, hb, by rw [hcap]; rfl⟩

/-! ### Claim C7 -/

/-- C7 counterexample: the inner `@font-face` capture `[^quote;]+` stops at
the first quote or semicolon, so a quoted family value containing a
semicolon is truncated there.  On a block declaring the family `My;Font`
(double-quoted) the code adds only `My`; the declared family itself is
never added, refuting the unconditional claim. -/
theorem claim_C7_counterexample :
    extractFonts "@font-face\x7bfont-family: \x22My;Font\x22;\x7d" = ["My"]
    ∧ ("My;Font" : String) ∉ extractFonts "@font-face\x7bfont-family: \x22My;Font\x22;\x7d" :=
  ⟨by decide, by decide⟩

/-- C7, amended: for every `@font-face` block of the CSS whose body consists
of a prefix in which the literal `font-family` does not occur
case-insensitively (appending the first ten literal characters also rules
out an occurrence straddling into the declaration), followed by the first
`font-family` declaration of the body, `extractFonts` locates that
declaration and adds the single declared family trimmed, without splitting
it on commas.  The value may be single-quoted, double-quoted (quotes
stripped) or unquoted; it must be free of interior quotes and semicolons,
since the capture would be truncated at such a character (see the
counterexample).  In the unquoted shape the value must not start with
whitespace (the regex swallows leading whitespace) and must extend to the
next quote, semicolon or the end of the body. -/
theorem claim_C7 :
    ∀ (css : String) (b b0 ws1 ws2 name mid : List Char),
      b ∈ scanBlocks css.data.length css.data →
      b = b0 ++ ("font-family".data ++ (ws1 ++ ':' :: (ws2 ++ mid))) →
      hasSeg "font-family".data ((b0 ++ "font-famil".data).map asciiLower) = false →
      (∀ c ∈ ws1, isWs c = true) →
      (∀ c ∈ ws2, isWs c = true) →
      name ≠ [] →
      (∀ c ∈ name, stopQuoted c = false) →
      ((∃ qc rest, (qc = '\x27' ∨ qc = '"') ∧ mid = qc :: (name ++ qc :: rest))
        ∨ (∃ rest, mid = name ++ rest ∧ name.takeWhile isWs = []
            ∧ rest.takeWhile (fun c => !stopQuoted c) = [])) →
      (⟨listTrim name⟩ : String) ∈ extractFonts css := by
  intro css b b0 ws1 ws2 name mid hb hshape hno hws1 hws2 hname hnm hcase
  refine mem_extractFonts_of_block hb ?_
  rcases hcase with ⟨qc, rest, hq, rfl⟩ | ⟨rest, rfl, hhead, hrest⟩
  · rw [hshape, findInnerFamily_skip2 b0 _ hno]
    exact findInnerFamily_at _ name
      (innerFamilyAfter_quoted ws1 ws2 name rest qc hq hws1 hws2 hname hnm)
  · rw [hshape, findInnerFamily_skip2 b0 _ hno]
    cases name with
    | nil => exact absurd rfl hname
    | cons n0 name2 =>
      exact findInnerFamily_at _ _
        (innerFamilyAfter_unquoted ws1 ws2 n0 name2 rest hws1 hws2 hnm hhead hrest)

/-- Witness for C7: a single-quoted family value containing a comma, placed
behind preceding `font-style` and `src: url(a.woff)` declarations (so the
prefix freely contains the letter f), is added whole; and an unquoted
family value containing a space is added whole. -/
theorem claim_C7_witness :
    (⟨listTrim "A, B".data⟩ : String)
        ∈ extractFonts
          "@font-face\x7bfont-style: italic; src: url(a.woff); font-family: \x27A, B\x27;\x7d"
    ∧ (⟨listTrim "Arial Black".data⟩ : String)
        ∈ extractFonts "@font-face\x7bfont-family: Arial Black;\x7d" :=
  ⟨claim_C7 "@font-face\x7bfont-style: italic; src: url(a.woff); font-family: \x27A, B\x27;\x7d"
      "font-style: italic; src: url(a.woff); font-family: \x27A, B\x27;".data
      "font-style: italic; src: url(a.woff); ".data
      [] [' '] "A, B".data ('\x27' :: ("A, B".data ++ '\x27' :: ";".data))
      (by decide) (by decide) (by decide) (by decide) (by decide) (by decide) (by decide)
      (Or.inl ⟨'\x27', ";".data, Or.inl rfl, rfl⟩),
    claim_C7 "@font-face\x7bfont-family: Arial Black;\x7d"
      "font-family: Arial Black;".data [] [] [' '] "Arial Black".data
      ("Arial Black".data ++ ";".data)
      (by decide) (by decide) (by decide) (by decide) (by decide) (by decide) (by decide)
      (Or.inr ⟨";".data, rfl, by decide, by decide⟩)⟩


/-! ### Claim C10 -/

theorem dropWhile_head_false {p : Char → Bool} :
    ∀ (l : List Char) (c : Char) (r : List Char), l.dropWhile p = c :: r → p c = false := by
  intro l
  induction l with
  | nil => intro c r h; cases h
  | cons x t ih =>
    intro c r h
    by_cases hx : p x = true
    · rw [List.dropWhile_cons, if_pos hx] at h
      exact ih c r h
    · rw [List.dropWhile_cons, if_neg hx] at h
      obtain ⟨rfl, rfl⟩ : x = c ∧ t = r := by
        injection h with h1 h2
        exact ⟨h1, h2⟩
      exact Bool.eq_false_iff.mpr hx

theorem findFamilyCapture_sound :
    ∀ (l cap : List Char), findFamilyCapture l = some cap →
      (∀ c ∈ cap, stopFamily c = false)
      ∧ ∃ pre lit post, l = pre ++ lit ++ cap ++ post
          ∧ lit.map asciiLower = "family=".data
          ∧ (post = [] ∨ ∃ c rest2, post = c :: rest2 ∧ stopFamily c = true) := by
  intro l
  induction l with
  | nil => intro cap h; cases h
  | cons c0 cs ih =>
    intro cap h
    simp only [findFamilyCapture] at h
    cases hp : ciPrefix "family=".data (c0 :: cs) with
    | some rest =>
      rw [hp] at h
      dsimp only at h
      by_cases hrun : rest.takeWhile (fun c => !stopFamily c) = []
      · rw [if_pos hrun] at h
        obtain ⟨hstop, pre, lit, post, hdec, hlit, hpost⟩ := ih cap h
        exact ⟨hstop, c0 :: pre, lit, post, by rw [hdec]; rfl, hlit, hpost⟩
      · rw [if_neg hrun] at h
        obtain rfl : rest.takeWhile (fun c => !stopFamily c) = cap :=
          Option.some_inj.mp h
        obtain ⟨lit, hl, hlit⟩ := ciPrefix_sound _ _ _ hp
        refine ⟨?_, [], lit, rest.dropWhile (fun c => !stopFamily c), ?_, ?_, ?_⟩
        · intro c hc
          have := List.mem_takeWhile_imp hc
          simpa using this
        · rw [List.nil_append, hl, List.append_assoc, List.takeWhile_append_dropWhile]
        · rw [hlit]
          decide
        · cases hd : rest.dropWhile (fun c => !stopFamily c) with
          | nil => exact Or.inl rfl
          | cons d r2 =>
            refine Or.inr ⟨d, r2, rfl, ?_⟩
            have := dropWhile_head_false rest d r2 hd
            simpa using this
    | none =>
      rw [hp] at h
      dsimp only at h
      obtain ⟨hstop, pre, lit, post, hdec, hlit, hpost⟩ := ih cap h
      exact ⟨hstop, c0 :: pre, lit, post, by rw [hdec]; rfl, hlit, hpost⟩

/-- C10: the family names extracted from a font-service link come only
from the portion of the (first, case-insensitively matched) `family=`
query parameter that precedes the first `:` or `&`: the capture contains
no such character and the address continues, if at all, with one of them,
so axis and weight suffixes (as in `family=Roboto:400`) and any further
families listed after such a colon are dropped. -/
theorem claim_C10 :
    (∀ (href : String) (cap : List Char),
        findFamilyCapture href.data = some cap →
          (∀ c ∈ cap, stopFamily c = false)
          ∧ ∃ pre lit post, href.data = pre ++ lit ++ cap ++ post
              ∧ lit.map asciiLower = "family=".data
              ∧ (post = [] ∨ ∃ c rest2, post = c :: rest2 ∧ stopFamily c = true))
    ∧ findFamilyCapture "family=Roboto:400".data = some "Roboto".data
    ∧ findFamilyCapture "family=Roboto:400|Lobster".data = some "Roboto".data :=
  ⟨fun href cap h => findFamilyCapture_sound href.data cap h, by decide, by decide⟩

/-- Witness for C10 at a concrete address. -/
theorem claim_C10_witness :
    (∀ c ∈ ("Roboto".data : List Char), stopFamily c = false)
    ∧ ∃ pre lit post,
        ("x?family=Roboto:400&family=Oswald" : String).data
          = pre ++ lit ++ "Roboto".data ++ post
        ∧ lit.map asciiLower = "family=".data
        ∧ (post = [] ∨ ∃ c rest2, post = c :: rest2 ∧ stopFamily c = true) :=
  claim_C10.1 "x?family=Roboto:400&family=Oswald" "Roboto".data (by decide)

/-! ### Claim C2 -/

/-- C2 counterexample: the upstream error message carries `statusText`,
not the numeric status — a 404 response whose `statusText` is
`Not Found` produces a message that does not contain `404`; and a
network-level fetch rejection is caught by the outer handler and reported
as the generic internal error, not as an upstream-fetch error. -/
theorem claim_C2_counterexample :
    POST idEnv (.json (some "http://a/")) (.resp 404 "Not Found" []) noFetch
      = .upstreamErr "Failed to fetch URL: Not Found"
    ∧ hasSeg "404".data ("Failed to fetch URL: Not Found").data = false
    ∧ POST idEnv (.json (some "http://a/")) .netErr noFetch = .internalErr := by
  refine ⟨by decide, by decide, by decide⟩

/-- C2 amended: a missing, empty or syntactically invalid target URL
yields a validation error whatever the fetch oracles would answer (so no
network access can influence the outcome); a document response with a
non-success status yields the upstream-fetch error whose message carries
the upstream `statusText` (which need not mention the numeric code) and
no collections; a network-level fetch rejection yields the internal
error. -/
theorem claim_C2_amended :
    (∀ (env : JsEnv) (docF : FetchResult Doc) (cssF : String → FetchResult String),
        POST env (.json none) docF cssF = .validationErr "URL is required")
    ∧ (∀ (env : JsEnv) (docF : FetchResult Doc) (cssF : String → FetchResult String),
        POST env (.json (some "")) docF cssF = .validationErr "URL is required")
    ∧ (∀ (env : JsEnv) (url : String) (docF : FetchResult Doc)
        (cssF : String → FetchResult String),
        url ≠ "" → env.parseOk url = false →
        POST env (.json (some url)) docF cssF = .validationErr "Invalid URL format")
    ∧ (∀ (env : JsEnv) (url : String) (st : Nat) (stx : String) (doc : Doc)
        (cssF : String → FetchResult String),
        url ≠ "" → env.parseOk url = true → respOk st = false →
        POST env (.json (some url)) (.resp st stx doc) cssF
          = .upstreamErr ("Failed to fetch URL: " ++ stx))
    ∧ (∀ (env : JsEnv) (url : String) (cssF : String → FetchResult String),
        url ≠ "" → env.parseOk url = true →
        POST env (.json (some url)) .netErr cssF = .internalErr) := by
  refine ⟨fun env docF cssF => rfl, fun env docF cssF => by simp [POST], ?_, ?_, ?_⟩
  · intro env url docF cssF hurl hparse
    simp [POST, hurl, hparse]
  · intro env url st stx doc cssF hurl hparse hok
    simp [POST, hurl, hparse, hok]
  · intro env url cssF hurl hparse
    simp [POST, hurl, hparse]

/-- Witness for C2 amended at concrete inputs. -/
theorem claim_C2_amended_witness :
    POST idEnv (.json (some "u")) (.resp 500 "Server Error" []) noFetch
      = .upstreamErr ("Failed to fetch URL: " ++ "Server Error")
    ∧ POST idEnv (.json (some "u")) .netErr noFetch = .internalErr :=
  ⟨claim_C2_amended.2.2.2.1 idEnv "u" 500 "Server Error" [] noFetch
      (by decide) (by decide) (by decide),
   claim_C2_amended.2.2.2.2 idEnv "u" noFetch (by decide) (by decide)⟩

/-! ### Provenance and uniqueness of the collections -/

theorem mk_ne_empty {l : List Char} (h : l ≠ []) : (⟨l⟩ : String) ≠ "" := by
  intro he
  apply h
  have := congrArg String.data he
  simpa using this

theorem bool_eq_false {b : Bool} (h : ¬ b = true) : b = false := by
  cases b
  · rfl
  · exact absurd rfl h

theorem urlTail_ne_nil {t : List Char} {p : List Char × List Char}
    (h : urlTail t = some p) : p.1 ≠ [] := by
  unfold urlTail at h
  dsimp only at h
  split at h
  · cases h
  · rename_i hrun
    split at h
    · obtain rfl := Option.some_inj.mp h
      exact hrun
    · split at h
      · obtain rfl := Option.some_inj.mp h
        exact hrun
      · cases h
    · cases h

theorem urlCaptureAt_ne_nil {cs : List Char} {p : List Char × List Char}
    (h : urlCaptureAt cs = some p) : p.1 ≠ [] := by
  unfold urlCaptureAt at h
  split at h
  · split at h
    · exact urlTail_ne_nil h
    · exact urlTail_ne_nil h
  · cases h

theorem scanUrls_ne_nil :
    ∀ (fuel : Nat) (cs cap : List Char), cap ∈ scanUrls fuel cs → cap ≠ [] := by
  intro fuel
  induction fuel with
  | zero => intro cs cap h; cases h
  | succ m ih =>
    intro cs cap h
    cases cs with
    | nil => cases h
    | cons c cs2 =>
      simp only [scanUrls] at h
      by_cases hpre : "url(".data.isPrefixOf (c :: cs2) = true
      · rw [if_pos hpre] at h
        cases hcap : urlCaptureAt ((c :: cs2).drop 4) with
        | some p =>
          rw [hcap] at h
          dsimp only at h
          rcases List.mem_cons.mp h with rfl | h2
          · exact urlCaptureAt_ne_nil hcap
          · exact ih _ _ h2
        | none =>
          rw [hcap] at h
          exact ih _ _ h
      · rw [if_neg hpre] at h
        exact ih _ _ h

theorem extractBackgroundImages_mem {env : JsEnv} {css base x : String}
    (h : x ∈ extractBackgroundImages env css base) :
    ∃ ref : String, ref ≠ "" ∧ "data:".data.isPrefixOf ref.data = false
      ∧ x = resolveUrl env base ref := by
  unfold extractBackgroundImages at h
  obtain ⟨cap, hcap, hx⟩ := List.mem_filterMap.mp h
  by_cases hd : "data:".data.isPrefixOf cap = true
  · rw [if_pos hd] at hx
    cases hx
  · rw [if_neg hd] at hx
    obtain rfl := Option.some_inj.mp hx
    refine ⟨⟨cap⟩, mk_ne_empty (scanUrls_ne_nil _ _ _ hcap), ?_, rfl⟩
    exact bool_eq_false hd

theorem imgPass_mem {env : JsEnv} {base : String} {doc : Doc} {s : List String} {x : String}
    (h : x ∈ imgPass env base doc s) :
    x ∈ s ∨ ∃ ref : String, ref ≠ "" ∧ "data:".data.isPrefixOf ref.data = false
      ∧ x = resolveUrl env base ref := by
  refine foldl_mem_inv
    (P := fun y => ∃ ref : String, ref ≠ "" ∧ "data:".data.isPrefixOf ref.data = false
      ∧ y = resolveUrl env base ref) _ ?_ doc s x h
  intro s2 e y hy
  dsimp only at hy
  split at hy
  · split at hy
    · rename_i src heq
      split at hy
      · rename_i hcond
        rcases mem_addUniq.mp hy with h1 | rfl
        · exact Or.inl h1
        · exact Or.inr ⟨src, hcond.1, bool_eq_false hcond.2, rfl⟩
      · exact Or.inl hy
    · exact Or.inl hy
  · exact Or.inl hy

theorem imgPass_nodup {env : JsEnv} {base : String} {doc : Doc} {s : List String}
    (hs : s.Nodup) : (imgPass env base doc s).Nodup := by
  refine foldl_nodup_inv _ ?_ doc s hs
  intro s2 e hs2
  dsimp only
  split
  · split
    · split
      · exact nodup_addUniq hs2 _
      · exact hs2
    · exact hs2
  · exact hs2

theorem srcsetPass_mem {env : JsEnv} {base : String} {doc : Doc} {s : List String} {x : String}
    (h : x ∈ srcsetPass env base doc s) :
    x ∈ s ∨ ∃ ref : String, ref ≠ "" ∧ "data:".data.isPrefixOf ref.data = false
      ∧ x = resolveUrl env base ref := by
  refine foldl_mem_inv
    (P := fun y => ∃ ref : String, ref ≠ "" ∧ "data:".data.isPrefixOf ref.data = false
      ∧ y = resolveUrl env base ref) _ ?_ doc s x h
  intro s2 e y hy
  dsimp only at hy
  split at hy
  · split at hy
    · rename_i ss heq
      split at hy
      · refine foldl_mem_inv
          (P := fun y => ∃ ref : String, ref ≠ "" ∧ "data:".data.isPrefixOf ref.data = false
            ∧ y = resolveUrl env base ref) _ ?_ (splitOnChar ',' ss.data) s2 y hy
        intro s3 part z hz
        split at hz
        · rename_i hcond
          rcases mem_addUniq.mp hz with h1 | rfl
          · exact Or.inl h1
          · refine Or.inr ⟨⟨(listTrim part).takeWhile (fun c => !isWs c)⟩,
              mk_ne_empty hcond.1, bool_eq_false hcond.2, rfl⟩
        · exact Or.inl hz
      · exact Or.inl hy
    · exact Or.inl hy
  · exact Or.inl hy

theorem srcsetPass_nodup {env : JsEnv} {base : String} {doc : Doc} {s : List String}
    (hs : s.Nodup) : (srcsetPass env base doc s).Nodup := by
  refine foldl_nodup_inv _ ?_ doc s hs
  intro s2 e hs2
  dsimp only
  split
  · split
    · split
      · refine foldl_nodup_inv _ ?_ _ s2 hs2
        intro s3 part hs3
        dsimp only
        split
        · exact nodup_addUniq hs3 _
        · exact hs3
      · exact hs2
    · exact hs2
  · exact hs2

/-! ### The Google-Fonts loop preserves the font set -/

theorem googleStep_subset {env : JsEnv} {fonts : List String} {href : String}
    {fonts2 : List String} (h : googleStep env fonts href = some fonts2) :
    fonts ⊆ fonts2 := by
  unfold googleStep at h
  split at h
  · obtain rfl := Option.some_inj.mp h
    exact fun x hx => hx
  · split at h
    · split at h
      · obtain rfl := Option.some_inj.mp h
        intro x hx
        rw [← List.foldl_map]
        exact (mem_foldl_addUniq _ _ _).mpr (Or.inl hx)
      · cases h
    · obtain rfl := Option.some_inj.mp h
      exact fun x hx => hx

theorem googleStep_nodup {env : JsEnv} {fonts : List String} {href : String}
    {fonts2 : List String} (h : googleStep env fonts href = some fonts2)
    (hn : fonts.Nodup) : fonts2.Nodup := by
  unfold googleStep at h
  split at h
  · obtain rfl := Option.some_inj.mp h
    exact hn
  · split at h
    · split at h
      · obtain rfl := Option.some_inj.mp h
        rw [← List.foldl_map]
        exact nodup_foldl_addUniq _ _ hn
      · cases h
    · obtain rfl := Option.some_inj.mp h
      exact hn

theorem googleFold_subset :
    ∀ (links : List String) (env : JsEnv) (fonts F : List String),
      googleFold env fonts links = some F → fonts ⊆ F := by
  intro links
  induction links with
  | nil =>
    intro env fonts F h
    obtain rfl := Option.some_inj.mp h
    exact fun x hx => hx
  | cons h0 t ih =>
    intro env fonts F h
    simp only [googleFold] at h
    cases hstep : googleStep env fonts h0 with
    | some fonts2 =>
      rw [hstep] at h
      exact fun x hx => ih env fonts2 F h (googleStep_subset hstep hx)
    | none => rw [hstep] at h; cases h

theorem googleFold_nodup :
    ∀ (links : List String) (env : JsEnv) (fonts F : List String),
      googleFold env fonts links = some F → fonts.Nodup → F.Nodup := by
  intro links
  induction links with
  | nil =>
    intro env fonts F h hn
    obtain rfl := Option.some_inj.mp h
    exact hn
  | cons h0 t ih =>
    intro env fonts F h hn
    simp only [googleFold] at h
    cases hstep : googleStep env fonts h0 with
    | some fonts2 =>
      rw [hstep] at h
      exact ih env fonts2 F h (googleStep_nodup hstep hn)
    | none => rw [hstep] at h; cases h

/-! ### Claim C1 -/

/-- C1 counterexample: a successful run can put the empty string into the
final font collection.  With a `<style>` block `@font-face{font-family: ;}`
the inner family pattern backtracks into the whitespace, captures `" "`,
and `extractFonts` adds its trim — the empty string — so the returned
fonts are `[""]`, violating the non-emptiness invariant. -/
theorem claim_C1_counterexample :
    POST idEnv (.json (some "http://a/"))
      (.resp 200 "OK" [⟨"style", [], "@font-face\x7bfont-family: ;\x7d"⟩]) noFetch
      = .success [] [] [""]
    ∧ ("" : String) ∈ ([""] : List String)
    ∧ ("" : String).data = [] := by
  refine ⟨by decide, by decide, rfl⟩

/-- C1 amended: on every successful run, each of the three collections
contains no duplicates; every color is `#` followed by six uppercase
hexadecimal digits (hence non-empty and not a data URI); and every image
entry is the resolution, against the request URL, of a non-empty
reference that does not start with `data:` (the resolver may still return
the reference unchanged when the URL constructor fails).  Fonts need not
be non-empty: the `@font-face` pass can contribute the empty string. -/
theorem claim_C1_amended :
    ∀ (env : JsEnv) (url : String) (docFetch : FetchResult Doc)
      (cssFetch : String → FetchResult String) (i c f : List String),
      POST env (.json (some url)) docFetch cssFetch = .success i c f →
      i.Nodup ∧ c.Nodup ∧ f.Nodup
      ∧ (∀ col ∈ c, ∃ es, col.data = '#' :: es ∧ es.length = 6
          ∧ ∀ ch ∈ es, isUpperHexDigit ch = true)
      ∧ (∀ img ∈ i, ∃ ref : String, ref ≠ ""
          ∧ "data:".data.isPrefixOf ref.data = false ∧ img = resolveUrl env url ref) := by
  intro env url docFetch cssFetch i c f h
  obtain ⟨st, stx, doc, rfl, _, _, _, hpipe⟩ := POST_success_inv h
  obtain ⟨hi, hc, hgoogleEq⟩ := pipeline_success_inv hpipe
  subst hi; subst hc
  refine ⟨?_, ?_, ?_, ?_, ?_⟩
  · exact nodup_foldl_addUniq _ _ (srcsetPass_nodup (imgPass_nodup List.nodup_nil))
  · exact nodup_foldl_addUniq _ _ List.nodup_nil
  · exact googleFold_nodup _ _ _ _ hgoogleEq (nodup_foldl_addUniq _ _ List.nodup_nil)
  · intro col hcol
    rcases (mem_foldl_addUniq _ _ _).mp hcol with h0 | hm
    · cases h0
    · exact extractColors_shape hm
  · intro img himg
    rcases (mem_foldl_addUniq _ _ _).mp himg with h0 | hm
    · rcases srcsetPass_mem h0 with h1 | hP
      · rcases imgPass_mem h1 with h2 | hP
        · cases h2
        · exact hP
      · exact hP
    · exact extractBackgroundImages_mem hm

/-- Witness for C1 amended on a concrete successful run with one image
and one color. -/
theorem claim_C1_amended_witness :
    (["/a.png"] : List String).Nodup ∧ (["#11AAFF"] : List String).Nodup
    ∧ ([] : List String).Nodup
    ∧ (∀ col ∈ (["#11AAFF"] : List String), ∃ es, col.data = '#' :: es ∧ es.length = 6
        ∧ ∀ ch ∈ es, isUpperHexDigit ch = true)
    ∧ (∀ img ∈ (["/a.png"] : List String), ∃ ref : String, ref ≠ ""
        ∧ "data:".data.isPrefixOf ref.data = false
        ∧ img = resolveUrl idEnv "http://a/" ref) :=
  claim_C1_amended idEnv "http://a/"
    (.resp 200 "OK" [⟨"img", [("src", "/a.png")], ""⟩,
      ⟨"style", [], "b \x7b color: #1AF \x7d"⟩]) noFetch
    ["/a.png"] ["#11AAFF"] [] (by decide)

/-! ### The recovered external CSS texts under partial failure -/

theorem foldl_ext {α β : Type} (f g : List α → β → List α)
    (h : ∀ s b, f s b = g s b) :
    ∀ (l : List β) (s : List α), l.foldl f s = l.foldl g s := by
  intro l
  induction l with
  | nil => intro s; rfl
  | cons b t ih =>
    intro s
    rw [List.foldl_cons, List.foldl_cons, h]
    exact ih _

theorem foldl_append_acc {α β : Type} (g : β → List α) :
    ∀ (l : List β) (s : List α),
      l.foldl (fun s b => s ++ g b) s = s ++ l.foldl (fun s b => s ++ g b) [] := by
  intro l
  induction l with
  | nil => intro s; simp
  | cons b t ih =>
    intro s
    simp only [List.foldl_cons, List.nil_append]
    rw [ih (s ++ g b), ih (g b), List.append_assoc]

theorem fetchedCssTexts_eq_contrib (cssFetch : String → FetchResult String)
    (urls : List String) :
    fetchedCssTexts cssFetch urls
      = urls.foldl (fun l u => l ++ cssContrib cssFetch u) [] := by
  unfold fetchedCssTexts
  refine foldl_ext _ _ ?_ urls []
  intro s u
  unfold cssContrib
  cases cssFetch u with
  | netErr => simp
  | resp st stx body =>
    dsimp only
    by_cases hc : respOk st ∧ body ≠ ""
    · rw [if_pos hc, if_pos hc]
    · rw [if_neg hc, if_neg hc]
      simp

theorem fetchedCssTexts_append (cssFetch : String → FetchResult String)
    (u1 u2 : List String) :
    fetchedCssTexts cssFetch (u1 ++ u2)
      = fetchedCssTexts cssFetch u1 ++ fetchedCssTexts cssFetch u2 := by
  simp only [fetchedCssTexts_eq_contrib, List.foldl_append]
  rw [foldl_append_acc]

theorem fetchedCssTexts_all_ok (cssFetch : String → FetchResult String)
    (txt : String → String) :
    ∀ (urls : List String),
      (∀ u ∈ urls, ∃ ust ustx, cssFetch u = .resp ust ustx (txt u)
        ∧ respOk ust = true ∧ txt u ≠ "") →
      fetchedCssTexts cssFetch urls = urls.map txt := by
  intro urls
  induction urls with
  | nil => intro _; rfl
  | cons u t ih =>
    intro hok
    have hu := hok u (List.mem_cons_self u t)
    obtain ⟨ust, ustx, hfu, hrok, hne⟩ := hu
    have : fetchedCssTexts cssFetch (u :: t)
        = fetchedCssTexts cssFetch [u] ++ fetchedCssTexts cssFetch t :=
      fetchedCssTexts_append cssFetch [u] t
    rw [this, ih (fun v hv => hok v (List.mem_cons_of_mem u hv))]
    have h1 : fetchedCssTexts cssFetch [u] = [txt u] := by
      unfold fetchedCssTexts
      simp only [List.foldl_cons, List.foldl_nil, hfu]
      rw [if_pos ⟨hrok, hne⟩]
      rfl
    rw [h1]
    rfl

theorem fetchedCssTexts_bad (cssFetch : String → FetchResult String)
    (bad : String)
    (hbad : cssFetch bad = .netErr
      ∨ ∃ bst bstx bbody, cssFetch bad = .resp bst bstx bbody ∧ respOk bst = false) :
    fetchedCssTexts cssFetch [bad] = [] := by
  unfold fetchedCssTexts
  simp only [List.foldl_cons, List.foldl_nil]
  rcases hbad with h | ⟨bst, bstx, bbody, hf, hok⟩
  · rw [h]
  · rw [hf]
    dsimp only
    rw [if_neg (by simp [hok])]

theorem POST_eval {env : JsEnv} {url : String} {st : Nat} {stx : String} {doc : Doc}
    (cssFetch : String → FetchResult String)
    (hurl : url ≠ "") (hp : env.parseOk url = true) (hok : respOk st = true) :
    POST env (.json (some url)) (.resp st stx doc) cssFetch
      = pipeline env url doc cssFetch := by
  simp [POST, hurl, hp, hok]

theorem pipeline_eval {env : JsEnv} {url : String} {doc : Doc}
    {cssFetch : String → FetchResult String} {f0 : List String}
    (hf0 : googleFold env
        ((extractFonts (combinedCssOf env url doc cssFetch)).foldl addUniq [])
        (googleHrefs doc) = some f0) :
    pipeline env url doc cssFetch
      = .success
          ((extractBackgroundImages env (combinedCssOf env url doc cssFetch) url).foldl
            addUniq (srcsetPass env url doc (imgPass env url doc [])))
          ((extractColors (combinedCssOf env url doc cssFetch)).foldl addUniq [])
          f0 := by
  simp only [pipeline, hf0]

/-! ### Claim C3 -/

/-- C3: when one queued external stylesheet fails to fetch (network error
or non-success status) and the other N−1 are recovered, `explode` still
succeeds — the failure never surfaces — and the final font and color sets
contain every entry derivable from the other N−1 stylesheet texts
together with the inline and embedded CSS fragments.  (The hypothesis on
`googleFold` says the Google-Fonts pass does not throw, e.g. there are no
such links or decoding succeeds.) -/
theorem claim_C3 :
    ∀ (env : JsEnv) (url : String) (st : Nat) (stx : String) (doc : Doc)
      (cssFetch : String → FetchResult String)
      (pre post : List String) (bad : String) (txt : String → String),
      url ≠ "" → env.parseOk url = true → respOk st = true →
      stylesheetUrls env url doc = pre ++ bad :: post →
      (cssFetch bad = .netErr
        ∨ ∃ bst bstx bbody, cssFetch bad = .resp bst bstx bbody ∧ respOk bst = false) →
      (∀ u ∈ pre ++ post, ∃ ust ustx, cssFetch u = .resp ust ustx (txt u)
        ∧ respOk ust = true ∧ txt u ≠ "") →
      (∃ f0, googleFold env
          ((extractFonts (combinedCssOf env url doc cssFetch)).foldl addUniq [])
          (googleHrefs doc) = some f0) →
      ∃ i c f, POST env (.json (some url)) (.resp st stx doc) cssFetch = .success i c f
        ∧ (∀ fam ∈ extractFonts (joinNl (inlineCssOf doc ++ embeddedCssOf doc
            ++ (pre ++ post).map txt)), fam ∈ f)
        ∧ (∀ col ∈ extractColors (joinNl (inlineCssOf doc ++ embeddedCssOf doc
            ++ (pre ++ post).map txt)), col ∈ c) := by
  intro env url st stx doc cssFetch pre post bad txt hurl hp hok hurls hbad hothers hg
  obtain ⟨f0, hf0⟩ := hg
  have hfetched : fetchedCssTexts cssFetch (stylesheetUrls env url doc)
      = (pre ++ post).map txt := by
    rw [hurls]
    have h1 : fetchedCssTexts cssFetch (pre ++ bad :: post)
        = fetchedCssTexts cssFetch pre ++ fetchedCssTexts cssFetch ([bad] ++ post) :=
      fetchedCssTexts_append cssFetch pre ([bad] ++ post)
    rw [h1, fetchedCssTexts_append cssFetch [bad] post,
      fetchedCssTexts_bad cssFetch bad hbad,
      fetchedCssTexts_all_ok cssFetch txt pre
        (fun u hu => hothers u (List.mem_append.mpr (Or.inl hu))),
      fetchedCssTexts_all_ok cssFetch txt post
        (fun u hu => hothers u (List.mem_append.mpr (Or.inr hu)))]
    simp
  have hcombined : combinedCssOf env url doc cssFetch
      = joinNl (inlineCssOf doc ++ embeddedCssOf doc ++ (pre ++ post).map txt) := by
    unfold combinedCssOf
    rw [hfetched]
  refine ⟨_, _, f0, by rw [POST_eval cssFetch hurl hp hok, pipeline_eval hf0], ?_, ?_⟩
  · intro fam hfam
    have h1 : fam ∈ extractFonts (combinedCssOf env url doc cssFetch) := by
      rw [hcombined]
      exact hfam
    exact googleFold_subset _ _ _ _ hf0 ((mem_foldl_addUniq _ _ _).mpr (Or.inr h1))
  · intro col hcol
    have h1 : col ∈ extractColors (combinedCssOf env url doc cssFetch) := by
      rw [hcombined]
      exact hcol
    exact (mem_foldl_addUniq _ _ _).mpr (Or.inr h1)

/-- Witness for C3: two stylesheets, the first unreachable; the fonts
derivable from the second still appear. -/
theorem claim_C3_witness :
    ∃ i c f, POST idEnv (.json (some "http://a/")) (.resp 200 "OK" docC3) fetchC3
        = .success i c f
      ∧ (∀ fam ∈ extractFonts (joinNl (inlineCssOf docC3 ++ embeddedCssOf docC3
          ++ (([] ++ ["B"]).map txtC3))), fam ∈ f)
      ∧ (∀ col ∈ extractColors (joinNl (inlineCssOf docC3 ++ embeddedCssOf docC3
          ++ (([] ++ ["B"]).map txtC3))), col ∈ c) :=
  claim_C3 idEnv "http://a/" 200 "OK" docC3 fetchC3 [] ["B"] "A" txtC3
    (by decide) (by decide) (by decide) (by decide) (Or.inl (by decide))
    (by
      intro u hu
      simp only [List.nil_append, List.mem_singleton] at hu
      subst hu
      exact ⟨200, "OK", by decide, by decide, by decide⟩)
    ⟨["Zeta"], by decide⟩

/-! ### Membership in the queued stylesheet URLs and the Google pass -/

theorem foldl_acc_mono {α β : Type} (step : List α → β → List α)
    (H : ∀ l b x, x ∈ l → x ∈ step l b) :
    ∀ (l : List β) (s : List α) (x : α), x ∈ s → x ∈ l.foldl step s := by
  intro l
  induction l with
  | nil => intro s x hx; exact hx
  | cons b t ih => intro s x hx; exact ih (step s b) x (H s b x hx)

theorem foldl_mem_of_elem {α β : Type} (step : List α → β → List α)
    (Hmono : ∀ l b x, x ∈ l → x ∈ step l b) {b : β} {x : α}
    (Hx : ∀ s, x ∈ step s b) :
    ∀ (l : List β), b ∈ l → ∀ (s : List α), x ∈ l.foldl step s := by
  intro l
  induction l with
  | nil => intro hb; cases hb
  | cons b0 t ih =>
    intro hb s
    rw [List.foldl_cons]
    rcases List.mem_cons.mp hb with rfl | hb2
    · exact foldl_acc_mono step Hmono t _ x (Hx s)
    · exact ih hb2 (step s b0)

theorem mem_stylesheetUrls {env : JsEnv} {url : String} {doc : Doc} {e : Elem}
    {href : String} (he : e ∈ doc) (htag : e.tag = "link")
    (hrel : getAttr e "rel" = some "stylesheet")
    (hhref : getAttr e "href" = some href) (hne : href ≠ "") :
    resolveUrl env url href ∈ stylesheetUrls env url doc := by
  unfold stylesheetUrls
  refine foldl_mem_of_elem _ ?_ (b := e) (x := resolveUrl env url href) ?_ doc he []
  · intro l b x hx
    dsimp only
    split
    · split
      · split
        · exact List.mem_append.mpr (Or.inl hx)
        · exact hx
      · exact hx
    · exact hx
  · intro s
    dsimp only
    rw [if_pos ⟨htag, hrel⟩, hhref]
    dsimp only
    rw [if_pos hne]
    simp

theorem mem_googleHrefs {doc : Doc} {e : Elem} {href : String}
    (he : e ∈ doc) (htag : e.tag = "link")
    (hhref : getAttr e "href" = some href)
    (hseg : hasSeg "fonts.googleapis.com".data href.data = true) :
    href ∈ googleHrefs doc := by
  unfold googleHrefs
  refine List.mem_filterMap.mpr ⟨e, he, ?_⟩
  rw [if_pos htag, hhref]
  dsimp only
  rw [if_pos hseg]

theorem googleFold_families :
    ∀ (links : List String) (env : JsEnv) (fonts F : List String) (href : String)
      (cap : List Char) (dec : String),
      googleFold env fonts links = some F → href ∈ links →
      findFamilyCapture href.data = some cap →
      env.decodeURI (⟨cap⟩ : String) = some dec →
      ∀ nm ∈ splitOnChar '|' dec.data, (⟨nm.map plusToSpace⟩ : String) ∈ F := by
  intro links
  induction links with
  | nil => intro env fonts F href cap dec _ hh; cases hh
  | cons h0 t ih =>
    intro env fonts F href cap dec hF hh hcap hdec nm hnm
    simp only [googleFold] at hF
    cases hstep : googleStep env fonts h0 with
    | none => rw [hstep] at hF; cases hF
    | some fonts2 =>
      rw [hstep] at hF
      rcases List.mem_cons.mp hh with rfl | hh2
      · have hne : href ≠ "" := by
          intro he
          have hz : findFamilyCapture ("" : String).data = none := rfl
          rw [he, hz] at hcap
          cases hcap
        unfold googleStep at hstep
        rw [if_neg hne, hcap] at hstep
        dsimp only at hstep
        rw [hdec] at hstep
        dsimp only at hstep
        obtain rfl := Option.some_inj.mp hstep
        refine googleFold_subset t env _ F hF ?_
        rw [← List.foldl_map]
        exact (mem_foldl_addUniq _ _ _).mpr (Or.inr (List.mem_map.mpr ⟨nm, hnm, rfl⟩))
      · exact ih env fonts2 F href cap dec hF hh2 hcap hdec nm hnm

/-! ### Claim C8 -/

/-- C8 counterexample: a Google-Fonts stylesheet link is NOT bypassed by
CSS fetching.  With a fetch oracle that answers the link address with CSS
declaring `Zebra`, the final fonts contain `Zebra` (and the URL-derived
`Roboto`); with an oracle that fails on every fetch they contain only
`Roboto`.  The two runs differ, so the link target is fetched and
consumed as an external stylesheet. -/
theorem claim_C8_counterexample :
    POST idEnv (.json (some "http://a/")) (.resp 200 "OK" docG) fetchZ
      = .success [] [] ["Zebra", "Roboto"]
    ∧ POST idEnv (.json (some "http://a/")) (.resp 200 "OK" docG) noFetch
      = .success [] [] ["Roboto"]
    ∧ (["Zebra", "Roboto"] : List String) ≠ ["Roboto"] := by
  refine ⟨by decide, by decide, by decide⟩

/-- C8 amended: for every link whose address matches the font-service
pattern, the `family=` capture is decoded, split on `|`, `+` replaced by
a space, and each resulting name is in the final font set; but such a
link does NOT bypass CSS fetching — when it is a stylesheet link its
resolved target is in the list of queued external stylesheet URLs, which
the orchestrator fetches like any other. -/
theorem claim_C8_amended :
    ∀ (env : JsEnv) (url : String) (st : Nat) (stx : String) (doc : Doc)
      (cssFetch : String → FetchResult String) (i c f : List String)
      (e : Elem) (href : String),
      POST env (.json (some url)) (.resp st stx doc) cssFetch = .success i c f →
      e ∈ doc → e.tag = "link" → getAttr e "href" = some href →
      hasSeg "fonts.googleapis.com".data href.data = true →
      (∀ (cap : List Char) (dec : String),
          findFamilyCapture href.data = some cap →
          env.decodeURI (⟨cap⟩ : String) = some dec →
          ∀ nm ∈ splitOnChar '|' dec.data, (⟨nm.map plusToSpace⟩ : String) ∈ f)
      ∧ (getAttr e "rel" = some "stylesheet" → href ≠ "" →
          resolveUrl env url href ∈ stylesheetUrls env url doc) := by
  intro env url st stx doc cssFetch i c f e href h he htag hhref hseg
  constructor
  · intro cap dec hcap hdec nm hnm
    obtain ⟨st2, stx2, doc2, heq, _, _, _, hpipe⟩ := POST_success_inv h
    injection heq with h1 h2 h3
    subst h1; subst h2; subst h3
    obtain ⟨_, _, hgoogleEq⟩ := pipeline_success_inv hpipe
    exact googleFold_families (googleHrefs doc) env _ f href cap dec hgoogleEq
      (mem_googleHrefs he htag hhref hseg) hcap hdec nm hnm
  · intro hrel hne
    exact mem_stylesheetUrls he htag hrel hhref hne

/-- Witness for C8 amended on the concrete Google-Fonts document. -/
theorem claim_C8_amended_witness :
    (⟨("Roboto" : String).data.map plusToSpace⟩ : String)
      ∈ (["Zebra", "Roboto"] : List String)
    ∧ resolveUrl idEnv "http://a/" gHref ∈ stylesheetUrls idEnv "http://a/" docG :=
  ⟨(claim_C8_amended idEnv "http://a/" 200 "OK" docG fetchZ [] [] ["Zebra", "Roboto"]
      linkG gHref (by decide) (by decide) (by decide) (by decide) (by decide)).1
      "Roboto".data "Roboto" (by decide) (by decide) "Roboto".data (by decide),
   (claim_C8_amended idEnv "http://a/" 200 "OK" docG fetchZ [] [] ["Zebra", "Roboto"]
      linkG gHref (by decide) (by decide) (by decide) (by decide) (by decide)).2
      (by decide) (by decide)⟩

/-! ### Concrete evaluations validating the embedding -/

example : extractColors "#1AF" = ["#11AAFF"] := by decide
example : extractColors "color:#fff; x:#ABCDEF" = ["#FFFFFF", "#ABCDEF"] := by decide
example : extractColors "#fff #fff" = ["#FFFFFF", "#FFFFFF"] := by decide
example : extractColors "#12345 #1234567 #abcg" = [] := by decide
example : extractFonts "font-family: Arial, sans-serif" = ["Arial", "sans-serif"] := by decide
example : extractFonts "font-family: inherit" = [] := by decide
example : extractFonts "font-family: \x22 A \x22" = [" A "] := by decide
example : extractFonts "@font-face\x7bfont-family: ;\x7d" = [""] := by decide
example : extractFonts "@font-face\x7bfont-family: \x22My Font\x22; src: x\x7d" = ["My Font"] := by decide
example : extractFonts "@font-face\x7bfont-family: A, B;\x7d" = ["A", "B", "A, B"] := by decide
example : extractFonts "div \x7b font-family: Arial; \x7d p \x7b font-family: ARIAL \x7d" = ["Arial", "ARIAL"] := by decide
example : findFamilyCapture "https://fonts.googleapis.com/css?family=Roboto:400".data
    = some "Roboto".data := by decide
example : findFamilyCapture "x?family=A+B|C&y=z".data = some "A+B|C".data := by decide
example : extractBackgroundImages idEnv
    "x \x7b background: url(a.png) url('b.png') url(\x22c\x22) \x7d" "base"
    = ["a.png", "b.png", "c"] := by decide
example : extractBackgroundImages idEnv "url(url(a))" "b" = ["url(a"] := by decide
example : extractBackgroundImages idEnv "url(abc'def) url('') url()" "b" = [] := by decide
example : extractBackgroundImages idEnv "url( a ) url(data:image/png;base64,x)" "b"
    = [" a "] := by decide
example :
    POST idEnv (.json (some "http://a/")) (.resp 200 "OK"
      [⟨"style", [], "@font-face\x7bfont-family: ;\x7d"⟩]) noFetch
    = .success [] [] [""] := by decide
example :
    POST idEnv (.json (some "http://a/")) (.resp 404 "Not Found" []) noFetch
    = .upstreamErr "Failed to fetch URL: Not Found" := by decide

end Explode
